import Mathlib

/-!
Shallow embedding of the tweet ingestion pipeline of twarchive
(`src/myarchive/modules/twitterlib.py`).  Python functions are translated
into executable Lean definitions: the relational store is modelled as
in-memory lists, the remote API either as an explicit function from request
arguments to results or as a sequence of responses consumed by the loop, and
wall-clock measurements as explicit rational inputs.  Record identities are
modelled as `Int` (tweet ids are numeric).
-/

namespace Twarchive


/-- Feed kinds, the module constants `USER` / `FAVORITES`.  The spec calls the
`USER` feed `TIMELINE`. -/

inductive FeedKind where
  | USER
  | FAVORITES
deriving DecidableEq, Repr

/-- The part of a raw API user dict the pipeline reads. -/

structure RawUser where
  id : Int
  screen_name : String
deriving DecidableEq, Repr

/-- The part of a raw API status dict (`status.AsDict()`) the pipeline reads. -/

structure RawStatus where
  id : Int
  user : RawUser
  text : String
  created_at : String
  in_reply_to_status_id : Option Int
  media : List String
  hashtags : List String
deriving DecidableEq, Repr

/-- A stored `Tweet` row: the fields the pipeline writes.  `tags` holds the
hashtag names attached via `add_tag`, `favorited_by` the handles attached via
`add_user_favorite`, `user_id` the owning user when the tweet was appended to
a user's `tweets` relation. -/

structure Tweet where
  id : Int
  text : String
  in_reply_to_status_id : Option Int
  created_at : String
  media_urls_list : List String
  tags : List String
  favorited_by : List String
  user_id : Option Int
  files_downloaded : Bool
deriving DecidableEq, Repr

/-- A stored `TwitterUser` row. -/

structure TwitterUser where
  id : Int
  screen_name : String
  files_downloaded : Bool
deriving DecidableEq, Repr

/-- `TwitterUser(user_dict)`: a user row created from an API user dict. -/

def TwitterUser.ofRaw (u : RawUser) : TwitterUser :=
  { id := u.id, screen_name := u.screen_name, files_downloaded := false }

/-- The store, reduced to the two tables the pipeline touches. -/

structure DB where
  tweets : List Tweet
  users : List TwitterUser
deriving DecidableEq, Repr

/-- `database.get_existing_tweet_ids()` / `session.query(Tweet.id).all()`. -/

def get_existing_tweet_ids (db : DB) : List Int :=
  db.tweets.map (fun t => t.id)

/-! ### Page scan (`archive_tweets`, lines 224-241)

Scanning one page of statuses in delivered order: stop (early termination)
at the first status whose id passes `since_id`, or — for the `USER` feed
only — whose id is already known; every status before that point is
collected and lowers the running `max_id`. -/

/-- The `max_id` update of lines 239-241:
`if max_id is None or status_id < max_id: max_id = status_id - 1`. -/

def updateMaxId (max_id : Option Int) (status_id : Int) : Option Int :=
  match max_id with
  | none => some (status_id - 1)
  | some m => if status_id < m then some (status_id - 1) else some m

/-- The early-termination condition of lines 226-228:
`(since_id is not None and status_id >= since_id) or
 (type_ == "USER" and status_id in existing_tweet_ids)`. -/

def earlyStop (type_ : FeedKind) (since_id : Option Int) (existing : List Int)
    (status_id : Int) : Bool :=
  (match since_id with
   | some sid => decide (sid ≤ status_id)
   | none => false)
  || (type_ == FeedKind.USER && existing.contains status_id)

/-- The `for loop_status in loop_statuses` scan of lines 224-241.  Returns the
collected statuses (in delivered order), the updated `max_id`, and the
`early_termination` flag. -/

def processPage (type_ : FeedKind) (since_id : Option Int) (existing : List Int) :
    Option Int → List RawStatus → List RawStatus × Option Int × Bool
  | max_id, [] => ([], max_id, false)
  | max_id, st :: rest =>
    if earlyStop type_ since_id existing st.id then ([], max_id, true)
    else
      let r := processPage type_ since_id existing (updateMaxId max_id st.id) rest
      (st :: r.1, r.2)

/-! ### The paging loop (`archive_tweets`, lines 160-241) as an interaction
with a sequence of remote responses

One response is consumed per request.  `Resp.page` is a successful
`GetUserTimeline` / `GetFavorites` reply, `Resp.rateLimit` the
`TwitterError` with code 88 caught at lines 205-213, `Resp.err` any other
`TwitterError` (re-raised at line 214).  The loop state is split into the
scan state (cursor and collected statuses) and the pacing state
(`request_index`, `requests_before_sleeps`, `sleep_time`), which never
influences what is collected. -/

inductive Resp where
  | page (statuses : List RawStatus)
  | rateLimit
  | err
deriving DecidableEq, Repr

structure ScanState where
  since_id : Option Int
  max_id : Option Int
  statuses : List RawStatus
  early_termination : Bool
deriving DecidableEq, Repr

structure PaceState where
  request_index : Nat
  requests_before_sleeps : Nat
  sleep_time : Nat
deriving DecidableEq, Repr

structure LoopState where
  scan : ScanState
  pace : PaceState
deriving DecidableEq, Repr

/-- Loop-entry state of lines 151-158: `since_id = None`, `max_id = None`,
no statuses, `request_index = 0`, `requests_before_sleeps = 1`,
`sleep_time = 0`. -/

def initState : LoopState :=
  ⟨{ since_id := none, max_id := none, statuses := [], early_termination := false },
   { request_index := 0, requests_before_sleeps := 1, sleep_time := 0 }⟩

/-- Rate-limit recovery, line 211: `request_index = requests_before_sleeps`
(followed by `sleep(sleep_time)` and `continue`). -/

def rateLimitRecover (p : PaceState) : PaceState :=
  { p with request_index := p.requests_before_sleeps }

/-- Pacing parameters set after a successful request (lines 193-204):
FAVORITES allows 15 requests/15 min (60s spacing), USER 300 (3s spacing). -/

def afterSuccessParams (type_ : FeedKind) (p : PaceState) : PaceState :=
  match type_ with
  | FeedKind.FAVORITES => { p with requests_before_sleeps := 15 - 1, sleep_time := 60 }
  | FeedKind.USER => { p with requests_before_sleeps := 300 - 1, sleep_time := 3 }

/-- Prepend a request (the `max_id` it was issued with) to the request trace
of a run result. -/

def prependTrace (x : Option Int) :
    Except Unit (List (Option Int) × LoopState) →
      Except Unit (List (Option Int) × LoopState)
  | .error e => .error e
  | .ok (tr, s) => .ok (x :: tr, s)

/-- The `while not early_termination` loop of `archive_tweets`, driven by a
response sequence.  Returns the trace of requests made (the `max_id` each
request was issued with) and the final state; `Resp.err` propagates as an
error, exactly like the re-raise at line 214. -/

def tlRun (type_ : FeedKind) (existing : List Int) :
    List Resp → LoopState → Except Unit (List (Option Int) × LoopState)
  | [], s => .ok ([], s)
  | r :: rest, s =>
    if s.scan.early_termination then .ok ([], s)
    else
      let p1 : PaceState := { s.pace with request_index := s.pace.request_index + 1 }
      match r with
      | .err => .error ()
      | .rateLimit =>
        prependTrace s.scan.max_id
          (tlRun type_ existing rest ⟨s.scan, rateLimitRecover p1⟩)
      | .page l =>
        let p2 := afterSuccessParams type_ p1
        if l = [] then .ok ([s.scan.max_id], ⟨s.scan, p2⟩)
        else
          let res := processPage type_ s.scan.since_id existing s.scan.max_id l
          let s3 : LoopState :=
            ⟨{ s.scan with
                statuses := s.scan.statuses ++ res.1
                max_id := (res.2).1
                early_termination := (res.2).2 }, p2⟩
          prependTrace s.scan.max_id (tlRun type_ existing rest s3)

/-- Result comparison keeping the request traces: both runs fail, or both
succeed with the same trace and the same scan state. -/

def resEqFull (a b : Except Unit (List (Option Int) × LoopState)) : Prop :=
  match a, b with
  | .error _, .error _ => True
  | .ok (tr, s), .ok (tr', s') => tr = tr' ∧ s.scan = s'.scan
  | _, _ => False

/-- Result comparison up to the request trace: both runs fail, or both
succeed with the same scan state (same collected statuses, same cursor). -/

def resEqScan (a b : Except Unit (List (Option Int) × LoopState)) : Prop :=
  match a, b with
  | .error _, .error _ => True
  | .ok (_, s), .ok (_, s') => s.scan = s'.scan
  | _, _ => False

/-- Drop the rate-limit responses from a response sequence: the sequence the
same remote would serve to a run in which every request succeeded
immediately. -/

def stripRL (resps : List Resp) : List Resp :=
  resps.filter (fun r => match r with | .rateLimit => false | _ => true)

/-! ### Insertion phase (`archive_tweets`, lines 243-294)

The collected statuses are inserted: statuses with an already-present id are
skipped; otherwise the author row is fetched (through a one-slot cache) or
created, the tweet row is created with its media url list, hashtags are
attached, and for the FAVORITES feed a favorite mark for the archiving
user's handle. -/

/-- Author lookup-or-create (lines 260-265). -/

def lookupOrCreateUser (db : DB) (u : RawUser) : DB × TwitterUser :=
  match db.users.find? (fun x => x.id == u.id) with
  | some found => (db, found)
  | none =>
    let nu := TwitterUser.ofRaw u
    ({ db with users := db.users ++ [nu] }, nu)

/-- The one-slot author cache of lines 255-265: query only when the cached
user does not match. -/

def ensure_user (db : DB) (cache : Option TwitterUser) (u : RawUser) :
    DB × TwitterUser :=
  match cache with
  | some cu => if cu.id = u.id then (db, cu) else lookupOrCreateUser db u
  | none => lookupOrCreateUser db u

/-- The tweet row built at lines 267-290 from a raw status: media url list
from the `media` dicts, hashtags attached as tags. -/

def tweetOfStatus (st : RawStatus) : Tweet :=
  { id := st.id, text := st.text, in_reply_to_status_id := st.in_reply_to_status_id,
    created_at := st.created_at, media_urls_list := st.media, tags := st.hashtags,
    favorited_by := [], user_id := none, files_downloaded := false }

/-- The tweet row as inserted by the API passes: for the FAVORITES feed a
favorite mark for the archiving user's handle is attached (line 292-293). -/

def tweetOfStatusFor (type_ : FeedKind) (username : String) (st : RawStatus) : Tweet :=
  if type_ = FeedKind.FAVORITES then
    { tweetOfStatus st with favorited_by := [username] }
  else tweetOfStatus st

/-- `database.session.add(tweet)`. -/

def addTweet (db : DB) (t : Tweet) : DB :=
  { db with tweets := db.tweets ++ [t] }

/-- The insertion loop of lines 248-293 over the collected statuses. -/

def insertStatuses (type_ : FeedKind) (username : String) (existing : List Int)
    (cache : Option TwitterUser) (db : DB) : List RawStatus → DB
  | [] => db
  | st :: rest =>
    if st.id ∈ existing then
      insertStatuses type_ username existing cache db rest
    else
      let r := ensure_user db cache st.user
      insertStatuses type_ username existing (some r.2)
        (addTweet r.1 (tweetOfStatusFor type_ username st)) rest

/-! ### The full API ingestion against a deterministic remote

For the whole-run properties (idempotence, ordering) the remote is a
function from feed kind and `max_id` to the served page, and the
`while` loop is run on fuel (one unit per request). -/

/-- The paging loop against a deterministic remote: accumulates collected
statuses until an empty page, early termination, or fuel exhaustion. -/

def pagingPass (type_ : FeedKind) (existing : List Int)
    (remote : FeedKind → Option Int → List RawStatus) :
    Nat → Option Int → Option Int → List RawStatus → List RawStatus
  | 0, _, _, acc => acc
  | fuel + 1, since_id, max_id, acc =>
    let page := remote type_ max_id
    if page = [] then acc
    else
      let res := processPage type_ since_id existing max_id page
      if (res.2).2 then acc ++ res.1
      else pagingPass type_ existing remote fuel since_id ((res.2).1) (acc ++ res.1)

/-- One `for type_ in (USER, FAVORITES)` iteration: page (with the feed
kind's shortcut id list), re-read the stored ids (line 245), insert. -/

def archivePass (remote : FeedKind → Option Int → List RawStatus)
    (username : String) (fuel : Nat) (type_ : FeedKind)
    (shortcut_ids : List Int) (db : DB) : DB :=
  let statuses := pagingPass type_ shortcut_ids remote fuel none none []
  insertStatuses type_ username (get_existing_tweet_ids db) none db statuses

/-- `archive_tweets`: the USER pass then the FAVORITES pass.  The id list
consulted by the early-termination shortcut is read once at line 147 and
refreshed at line 245 before the USER insertion (hence before any insert of
this run), so both passes scan against the pre-run id list; only the
insertion-phase check of line 252 sees this run's own inserts. -/

def archive_tweets (remote : FeedKind → Option Int → List RawStatus)
    (username : String) (fuel : Nat) (db : DB) : DB :=
  let existing := get_existing_tweet_ids db
  let db1 := archivePass remote username fuel FeedKind.USER existing db
  archivePass remote username fuel FeedKind.FAVORITES existing db1

/-! ### CSV reconciliation (`import_from_csv`, lines 323-489) -/

/-- One row of the export CSV, the columns read at lines 331-346. -/

structure CsvRow where
  tweet_id : Int
  in_reply_to_status_id : String
  in_reply_to_user_id : String
  timestamp : String
  text : String
  retweeted_status_id : String
  retweeted_status_user_id : String
  retweeted_status_timestamp : String
  expanded_urls : String
deriving DecidableEq, Repr

/-- The `CSVTweet` namedtuple (lines 56-68). -/

structure CSVTweet where
  id : Int
  username : String
  in_reply_to_status_id : String
  in_reply_to_user_id : String
  timestamp : String
  text : String
  retweeted_status_id : String
  retweeted_status_user_id : String
  retweeted_status_timestamp : String
  expanded_urls : String
deriving DecidableEq, Repr

/-- Building a `CSVTweet` from a row (lines 334-347): the username is the
one supplied to the import. -/

def csvTweetOfRow (username : String) (r : CsvRow) : CSVTweet :=
  { id := r.tweet_id, username := username,
    in_reply_to_status_id := r.in_reply_to_status_id,
    in_reply_to_user_id := r.in_reply_to_user_id,
    timestamp := r.timestamp, text := r.text,
    retweeted_status_id := r.retweeted_status_id,
    retweeted_status_user_id := r.retweeted_status_user_id,
    retweeted_status_timestamp := r.retweeted_status_timestamp,
    expanded_urls := r.expanded_urls }

/-- Python-dict update keeping insertion order: replace the entry carrying
this key, or append a new one. -/

def upsert : List (Int × CSVTweet) → Int → CSVTweet → List (Int × CSVTweet)
  | [], k, v => [(k, v)]
  | p :: rest, k, v => if p.1 = k then (k, v) :: rest else p :: upsert rest k v

/-- Dict lookup by key. -/

def lookupEntry (m : List (Int × CSVTweet)) (i : Int) : Option CSVTweet :=
  (m.find? (fun p => p.1 == i)).map (fun p => p.2)

/-- The CSV scan of lines 327-348: rows whose id is already known are
skipped, the rest are keyed by id into `csv_tweets_by_id`. -/

def csvScan (username : String) (existing : List Int) (rows : List CsvRow) :
    List (Int × CSVTweet) :=
  rows.foldl
    (fun m r =>
      if r.tweet_id ∈ existing then m
      else upsert m r.tweet_id (csvTweetOfRow username r)) []

/-- `LookupStatuses` (lines 77-116): `status_ids must be between 1 and 100
in length`, otherwise the statuses the remote knows among the requested
ids. -/

def LookupStatuses (remote : Int → Option RawStatus) (status_ids : List Int) :
    Except String (List RawStatus) :=
  if status_ids = [] ∨ 100 < status_ids.length then
    .error "status_ids must be between 1 and 100 in length."
  else
    .ok (status_ids.filterMap remote)

/-- Per-group insertion (lines 410-461): every returned status is stored —
the author is ensured through the one-slot cache (reset to `None` at line
410 for each group), the tweet row added unconditionally with its hashtags;
there is no known-id check in this loop. -/

def insertLookupGroupGo (cache : Option TwitterUser) (db : DB) :
    List RawStatus → DB
  | [] => db
  | st :: rest =>
    let r := ensure_user db cache st.user
    insertLookupGroupGo (some r.2) (addTweet r.1 (tweetOfStatus st)) rest

def insertLookupGroup (db : DB) (statuses : List RawStatus) : DB :=
  insertLookupGroupGo none db statuses

/-- The 100-id groups `csv_ids[k:100+k]` walked by the loop of lines
370-474, packaged as a list of slices (the internal fuel is only a
structural-recursion bound and is large enough, see `chunks_cons_of_ne`). -/

def chunksAux : Nat → List Int → List (List Int)
  | 0, _ => []
  | _, [] => []
  | f + 1, x :: xs => ((x :: xs).take 100) :: chunksAux f ((x :: xs).drop 100)

def chunks (l : List Int) : List (List Int) :=
  chunksAux (l.length + 1) l

/-- The bulk-lookup loop over the groups, fault-free form (the rate-limit
retry path is treated by `csvRun`); a `LookupStatuses` error propagates
like the re-raise at line 472. -/

def runGroups (remote : Int → Option RawStatus) (db : DB) :
    List (List Int) → Except String DB
  | [] => .ok db
  | g :: gs =>
    match LookupStatuses remote g with
    | .error e => .error e
    | .ok sts => runGroups remote (insertLookupGroup db sts) gs

/-- `Tweet.make_from_csvtweet`.  Modelled from the spec: the function lives
in `myarchive.db.tag_db.tables.twittertables`, which is not among the
sources; per the spec the standalone Record is built directly from the
PendingCSVRecord fields alone — CSV data carries no media, no hashtags and
no author object. -/

def Tweet.make_from_csvtweet (c : CSVTweet) : Tweet :=
  { id := c.id, text := c.text, in_reply_to_status_id := none,
    created_at := c.timestamp, media_urls_list := [], tags := [],
    favorited_by := [], user_id := none, files_downloaded := false }

/-- Lines 482-488: build the standalone tweet from the CSV fields and
attach it to the author found by handle, if any (`user.tweets.append` sets
the tweet's owning user); no author is ever created here. -/

def linkByHandle (users : List TwitterUser) (c : CSVTweet) : Tweet :=
  match users.find? (fun u => u.screen_name == c.username) with
  | some u => { Tweet.make_from_csvtweet c with user_id := some u.id }
  | none => Tweet.make_from_csvtweet c

def insertCsvOnly (db : DB) (c : CSVTweet) : DB :=
  addTweet db (linkByHandle db.users c)

/-- The CSV-only phase of lines 477-489: the stored id list is refreshed
once (line 479), then every entry still unknown is inserted standalone. -/

def csvOnlyPhase (db : DB) (m : List (Int × CSVTweet)) : DB :=
  m.foldl
    (fun acc p =>
      if p.1 ∈ get_existing_tweet_ids db then acc
      else insertCsvOnly acc p.2) db

/-- `import_from_csv`: scan the CSV keeping unknown ids, look them up in
100-id groups inserting every returned status, then insert the
still-unconfirmed entries standalone. -/

def import_from_csv (remote : Int → Option RawStatus) (username : String)
    (rows : List CsvRow) (db : DB) : Except String DB :=
  let m := csvScan username (get_existing_tweet_ids db) rows
  match runGroups remote db (chunks (m.map (fun p => p.1))) with
  | .error e => .error e
  | .ok db2 => .ok (csvOnlyPhase db2 m)

/-! ### The bulk-lookup loop as an interaction with a response sequence
(for the rate-limit retry path of lines 463-471) -/

inductive LResp where
  | statuses (l : List RawStatus)
  | rateLimit
  | err
deriving DecidableEq, Repr

structure CsvState where
  tweet_index : Nat
  request_index : Nat
  db : DB
deriving DecidableEq, Repr

def prependCsvTrace (g : List Int) :
    Except Unit (List (List Int) × CsvState) →
      Except Unit (List (List Int) × CsvState)
  | .error e => .error e
  | .ok (tr, s) => .ok (g :: tr, s)

/-- The `while sliced_ids` loop of lines 376-474 driven by a response
sequence.  Each request's argument is the slice
`csv_ids[tweet_index : 100 + tweet_index]`.  A rate-limit response (code
88, lines 463-471) sets `request_index = requests_before_sleeps` (59),
sleeps, and retries with `tweet_index`, the slice and the store unchanged;
on success the group is inserted and `tweet_index` advances by 100. -/

def csvRun (csvIds : List Int) :
    List LResp → CsvState → Except Unit (List (List Int) × CsvState)
  | [], s => .ok ([], s)
  | r :: rest, s =>
    if (csvIds.drop s.tweet_index).take 100 = [] then .ok ([], s)
    else
      match r with
      | .err => .error ()
      | .rateLimit =>
        prependCsvTrace ((csvIds.drop s.tweet_index).take 100)
          (csvRun csvIds rest { s with request_index := 60 - 1 })
      | .statuses l =>
        prependCsvTrace ((csvIds.drop s.tweet_index).take 100)
          (csvRun csvIds rest
            { tweet_index := s.tweet_index + 100
              request_index := s.request_index + 1
              db := insertLookupGroup s.db l })

def stripCsvRL (resps : List LResp) : List LResp :=
  resps.filter (fun r => match r with | .rateLimit => false | _ => true)

/-- Result comparison for `csvRun` keeping the request traces. -/

def cresEqFull (a b : Except Unit (List (List Int) × CsvState)) : Prop :=
  match a, b with
  | .error _, .error _ => True
  | .ok (tr, s), .ok (tr', s') =>
    tr = tr' ∧ s.tweet_index = s'.tweet_index ∧ s.db = s'.db
  | _, _ => False

/-- Result comparison for `csvRun` up to the request trace. -/

def cresEqObs (a b : Except Unit (List (List Int) × CsvState)) : Prop :=
  match a, b with
  | .error _, .error _ => True
  | .ok (_, s), .ok (_, s') => s.tweet_index = s'.tweet_index ∧ s.db = s'.db
  | _, _ => False

/-! ### The rate-limit wait step (`archive_tweets` lines 163-178 and
`import_from_csv` lines 381-396)

Wall-clock readings are explicit rational inputs: `d1` is the elapsed time
measured at the first `time.time() - start_time`, `d2` the re-measured
elapsed time after the media downloads.  The step is rendered as the list
of externally visible actions it performs. -/

inductive WaitAction where
  | downloadMedia
  | sleep (d : ℚ)
deriving DecidableEq, Repr

/-- Lines 163-178: once `request_index` reaches `requests_before_sleeps`,
if less than `sleep_time` has elapsed, first download the media of all
tweets collected so far, re-measure, and sleep only the still-missing
time. -/

def archiveWaitStep (request_index requests_before_sleeps : Nat)
    (sleep_time d1 d2 : ℚ) : List WaitAction :=
  if request_index ≥ requests_before_sleeps then
    if d1 < sleep_time then
      WaitAction.downloadMedia ::
        (if d2 < sleep_time then [WaitAction.sleep (sleep_time - d2)] else [])
    else []
  else []

/-- Lines 381-396: the same step in `import_from_csv`, whose source checks
`duration < sleep_time` twice in a row (lines 383-384) before the
downloads. -/

def csvWaitStep (request_index requests_before_sleeps : Nat)
    (sleep_time d1 d2 : ℚ) : List WaitAction :=
  if request_index ≥ requests_before_sleeps then
    if d1 < sleep_time then
      if d1 < sleep_time then
        WaitAction.downloadMedia ::
          (if d2 < sleep_time then [WaitAction.sleep (sleep_time - d2)] else [])
      else []
    else []
  else []

/-! ### `download_media` (lines 491-507)

The pass over pending tweets, then pending users, rendered as the list of
events it performs: one `process` per item and the commits of
`if index % 100 == 0: commit()` plus the final commit. -/

inductive DlItem where
  | tweet (t : Tweet)
  | user (u : TwitterUser)
deriving DecidableEq, Repr

inductive DlEvent where
  | process (item : DlItem)
  | commit
deriving DecidableEq, Repr

/-- One `for index, item in enumerate(query)` pass starting at index `i`:
process the item, commit when `index % 100 == 0`. -/

def dlPass (f : α → DlItem) : Nat → List α → List DlEvent
  | _, [] => []
  | i, x :: rest =>
    DlEvent.process (f x) ::
      ((if i % 100 = 0 then [DlEvent.commit] else []) ++ dlPass f (i + 1) rest)

/-- `download_media`: all tweets with `files_downloaded == False`, then all
users with `files_downloaded == False`, then a final commit. -/

def download_media_events (db : DB) : List DlEvent :=
  dlPass DlItem.tweet 0 (db.tweets.filter (fun t => !t.files_downloaded)) ++
    dlPass DlItem.user 0 (db.users.filter (fun u => !u.files_downloaded)) ++
    [DlEvent.commit]

/-- The items processed by an event list, in order. -/

def processedItems (evs : List DlEvent) : List DlItem :=
  evs.filterMap (fun e => match e with
    | DlEvent.process it => some it
    | DlEvent.commit => none)

/-- Number of processed items standing before each commit. -/

def commitCountsAux : List DlEvent → Nat → List Nat
  | [], _ => []
  | DlEvent.process _ :: r, c => commitCountsAux r (c + 1)
  | DlEvent.commit :: r, c => c :: commitCountsAux r c

def commitCounts (evs : List DlEvent) : List Nat :=
  commitCountsAux evs 0

/-- Largest number of processed items ever pending without a commit. -/

def maxPendingAux : List DlEvent → Nat → Nat → Nat
  | [], _, mx => mx
  | DlEvent.process _ :: r, c, mx => maxPendingAux r (c + 1) (max mx (c + 1))
  | DlEvent.commit :: r, _, mx => maxPendingAux r 0 mx

def maxPending (evs : List DlEvent) : Nat :=
  maxPendingAux evs 0 0

/-- The spec's commit discipline, stated from its words: every commit point
(counted in processed items) is a positive multiple of 100, or is the final
commit at the end. -/

def commitsInHundredBatches (evs : List DlEvent) : Prop :=
  ∀ n ∈ commitCounts evs, n % 100 = 0 ∨ n = (processedItems evs).length

instance (evs : List DlEvent) : Decidable (commitsInHundredBatches evs) := by
  unfold commitsInHundredBatches
  infer_instance

/-- The commit counts a pass contributes: one commit right after the item
at every index divisible by 100 (the 1st, 101st, 201st, ... items). -/

def batchMarks : Nat → Nat → Nat → List Nat
  | _, _, 0 => []
  | i, c, n + 1 =>
    (if i % 100 = 0 then [c + 1] else []) ++ batchMarks (i + 1) (c + 1) n

/-! ### Concrete sample data for witnesses and counterexamples -/

def wUser : RawUser := { id := 1, screen_name := "alice" }

def wStatus (i : Int) : RawStatus :=
  { id := i, user := wUser, text := "t", created_at := "c",
    in_reply_to_status_id := none, media := [], hashtags := [] }

def wDb103 : DB := { tweets := [tweetOfStatus (wStatus 103)], users := [] }

def wDb2 : DB :=
  { tweets := [tweetOfStatus (wStatus 1), tweetOfStatus (wStatus 2)], users := [] }

def wEmptyDb : DB := { tweets := [], users := [] }

def wRemoteNone : Int → Option RawStatus := fun _ => none

def wRemotePages : FeedKind → Option Int → List RawStatus :=
  fun _ m =>
    match m with
    | none => [wStatus 105, wStatus 104]
    | some _ => []

def wRow42 : CsvRow :=
  { tweet_id := 42, in_reply_to_status_id := "", in_reply_to_user_id := "",
    timestamp := "2016-01-01", text := "hello", retweeted_status_id := "",
    retweeted_status_user_id := "", retweeted_status_timestamp := "",
    expanded_urls := "" }

/-! ### The claims -/

/-! ### Properties -/

theorem earlyStop_fav (existing : List Int) (i : Int) :
    earlyStop FeedKind.FAVORITES none existing i = false := by
  simp [earlyStop]

theorem earlyStop_user (existing : List Int) (i : Int) :
    earlyStop FeedKind.USER none existing i = existing.contains i := by
  simp [earlyStop]

/-- With no `since_id` boundary, a FAVORITES page scan collects the whole
page: the known-identity shortcut is tested only for the `USER` feed. -/
theorem processPage_fav_fst (existing : List Int) :
    ∀ (max_id : Option Int) (page : List RawStatus),
      (processPage FeedKind.FAVORITES none existing max_id page).1 = page := by
  intro max_id page
  induction page generalizing max_id with
  | nil => rfl
  | cons st rest ih => simp [processPage, earlyStop_fav, ih]

/-- A FAVORITES page scan (no `since_id`) never raises the early-termination
flag. -/
theorem processPage_fav_early (existing : List Int) :
    ∀ (max_id : Option Int) (page : List RawStatus),
      (processPage FeedKind.FAVORITES none existing max_id page).2.2 = false := by
  intro max_id page
  induction page generalizing max_id with
  | nil => rfl
  | cons st rest ih => simp [processPage, earlyStop_fav, ih]

/-- For the `USER` feed with no `since_id` boundary, the collected statuses
are exactly those preceding the first already-known identity. -/
theorem processPage_user_takeWhile (existing : List Int) :
    ∀ (max_id : Option Int) (page : List RawStatus),
      (processPage FeedKind.USER none existing max_id page).1 =
        page.takeWhile (fun st => !(existing.contains st.id)) := by
  intro max_id page
  induction page generalizing max_id with
  | nil => rfl
  | cons st rest ih =>
    by_cases h : st.id ∈ existing
    · simp [processPage, earlyStop_user, List.takeWhile, h]
    · simp [processPage, earlyStop_user, List.takeWhile, h, ih]

/-- The collected statuses form a prefix of the page. -/
theorem processPage_fst_append (type_ : FeedKind) (since_id : Option Int)
    (existing : List Int) :
    ∀ (max_id : Option Int) (page : List RawStatus),
      ∃ suf, (processPage type_ since_id existing max_id page).1 ++ suf = page := by
  intro max_id page
  induction page generalizing max_id with
  | nil => exact ⟨[], rfl⟩
  | cons st rest ih =>
    by_cases h : earlyStop type_ since_id existing st.id
    · exact ⟨st :: rest, by simp [processPage, h]⟩
    · obtain ⟨suf, hsuf⟩ := ih (updateMaxId max_id st.id)
      exact ⟨suf, by simp [processPage, h, hsuf]⟩

theorem updateMaxId_spec (max_id : Option Int) (i : Int) :
    ∃ v, updateMaxId max_id i = some v ∧ v ≤ i ∧
      ∀ m₀, max_id = some m₀ → v ≤ m₀ := by
  match max_id with
  | none => exact ⟨i - 1, rfl, by omega, by intro m₀ h; cases h⟩
  | some m =>
    by_cases h : i < m
    · exact ⟨i - 1, by simp [updateMaxId, h], by omega,
        by intro m₀ hm; injection hm with hm; omega⟩
    · exact ⟨m, by simp [updateMaxId, h], by omega,
        by intro m₀ hm; injection hm with hm; omega⟩

/-- Resulting `max_id` of a page scan: either nothing was collected and it is
unchanged, or it is a value at most every collected identity and at most the
incoming bound. -/
theorem processPage_maxId (type_ : FeedKind) (since_id : Option Int)
    (existing : List Int) :
    ∀ (max_id : Option Int) (page : List RawStatus),
      ((processPage type_ since_id existing max_id page).1 = [] ∧
        (processPage type_ since_id existing max_id page).2.1 = max_id) ∨
      (∃ v, (processPage type_ since_id existing max_id page).2.1 = some v ∧
        (∀ st ∈ (processPage type_ since_id existing max_id page).1, v ≤ st.id) ∧
        (∀ m₀, max_id = some m₀ → v ≤ m₀)) := by
  intro max_id page
  induction page generalizing max_id with
  | nil => exact Or.inl ⟨rfl, rfl⟩
  | cons st rest ih =>
    by_cases h : earlyStop type_ since_id existing st.id
    · exact Or.inl (by simp [processPage, h])
    · right
      obtain ⟨u, hu, hui, hule⟩ := updateMaxId_spec max_id st.id
      have hunfold : processPage type_ since_id existing max_id (st :: rest) =
          (st :: (processPage type_ since_id existing (some u) rest).1,
            (processPage type_ since_id existing (some u) rest).2) := by
        simp [processPage, h, hu]
      rw [hunfold]
      rcases ih (some u) with ⟨hnil, hmax⟩ | ⟨v, hv, hvc, hvle⟩
      · refine ⟨u, by simpa using hmax, ?_, fun m₀ hm₀ => hule m₀ hm₀⟩
        intro st' hst'
        simp [hnil] at hst'
        subst hst'; exact hui
      · refine ⟨v, by simpa using hv, ?_, ?_⟩
        · intro st' hst'
          simp only [List.mem_cons] at hst'
          rcases hst' with rfl | hst'
          · exact le_trans (hvle u rfl) hui
          · exact hvc st' hst'
        · intro m₀ hm₀
          exact le_trans (hvle u rfl) (hule m₀ hm₀)

/-- If a page scan did not raise the early-termination flag, the whole page
was collected. -/
theorem processPage_not_early (type_ : FeedKind) (since_id : Option Int)
    (existing : List Int) :
    ∀ (max_id : Option Int) (page : List RawStatus),
      (processPage type_ since_id existing max_id page).2.2 = false →
      (processPage type_ since_id existing max_id page).1 = page := by
  intro max_id page
  induction page generalizing max_id with
  | nil => intro _; rfl
  | cons st rest ih =>
    intro hfl
    by_cases h : earlyStop type_ since_id existing st.id
    · simp [processPage, h] at hfl
    · simp only [processPage, h, if_false, Bool.false_eq_true] at hfl ⊢
      simpa using ih (updateMaxId max_id st.id) hfl

/-- With the early-termination flag raised, the loop stops: no response is
consumed, no further request is made. -/
theorem tlRun_early_stop (type_ : FeedKind) (existing : List Int)
    (resps : List Resp) (sc : ScanState) (p : PaceState)
    (he : sc.early_termination = true) :
    tlRun type_ existing resps ⟨sc, p⟩ = .ok ([], ⟨sc, p⟩) := by
  cases resps with
  | nil => rfl
  | cons r rest => simp [tlRun, he]

theorem resEqFull_toScan (a b : Except Unit (List (Option Int) × LoopState)) :
    resEqFull a b → resEqScan a b := by
  match a, b with
  | .error _, .error _ => intro _; trivial
  | .ok (tr, s), .ok (tr', s') => exact fun h => h.2
  | .error _, .ok _ => intro h; cases h
  | .ok _, .error _ => intro h; cases h

theorem resEqScan_trans (a b c : Except Unit (List (Option Int) × LoopState)) :
    resEqScan a b → resEqScan b c → resEqScan a c := by
  match a, b, c with
  | .error _, .error _, .error _ => intro _ _; trivial
  | .ok (_, s), .ok (_, s'), .ok (_, s'') => exact fun h h' => h.trans h'
  | .error _, .error _, .ok _ => intro _ h; cases h
  | .error _, .ok _, _ => intro h; cases h
  | .ok _, .error _, _ => intro h; cases h
  | .ok _, .ok _, .error _ => intro _ h; cases h

theorem resEqFull_prependTrace (x : Option Int)
    (a b : Except Unit (List (Option Int) × LoopState)) :
    resEqFull a b → resEqFull (prependTrace x a) (prependTrace x b) := by
  match a, b with
  | .error _, .error _ => intro _; trivial
  | .ok (tr, s), .ok (tr', s') =>
    intro h; exact ⟨by rw [h.1], h.2⟩
  | .error _, .ok _ => intro h; cases h
  | .ok _, .error _ => intro h; cases h

theorem resEqScan_prependTrace_left (x : Option Int)
    (a b : Except Unit (List (Option Int) × LoopState)) :
    resEqScan a b → resEqScan (prependTrace x a) b := by
  match a, b with
  | .error _, .error _ => intro _; trivial
  | .ok (tr, s), .ok (tr', s') => exact fun h => h
  | .error _, .ok _ => intro h; cases h
  | .ok _, .error _ => intro h; cases h

theorem resEqScan_prependTrace_both (x y : Option Int)
    (a b : Except Unit (List (Option Int) × LoopState)) :
    resEqScan a b → resEqScan (prependTrace x a) (prependTrace y b) := by
  match a, b with
  | .error _, .error _ => intro _; trivial
  | .ok (tr, s), .ok (tr', s') => exact fun h => h
  | .error _, .ok _ => intro h; cases h
  | .ok _, .error _ => intro h; cases h

/-- The pacing state never influences which statuses are collected, which
requests are made, or whether the run fails. -/
theorem tlRun_pace_irrelevant (type_ : FeedKind) (existing : List Int) :
    ∀ (resps : List Resp) (sc : ScanState) (p p' : PaceState),
      resEqFull (tlRun type_ existing resps ⟨sc, p⟩)
        (tlRun type_ existing resps ⟨sc, p'⟩) := by
  intro resps
  induction resps with
  | nil => intro sc p p'; exact ⟨rfl, rfl⟩
  | cons r rest ih =>
    intro sc p p'
    by_cases he : sc.early_termination
    · simp only [tlRun, he, if_true]
      exact ⟨rfl, rfl⟩
    · cases r with
      | err => simp [tlRun, he]; trivial
      | rateLimit =>
        simp only [tlRun, he, if_false, Bool.false_eq_true]
        exact resEqFull_prependTrace _ _ _ (ih sc _ _)
      | page l =>
        by_cases hl : l = []
        · simp only [tlRun, he, hl, if_true, if_false, Bool.false_eq_true]
          exact ⟨rfl, rfl⟩
        · simp only [tlRun, he, hl, if_false, Bool.false_eq_true]
          exact resEqFull_prependTrace _ _ _ (ih _ _ _)

/-- Removing the rate-limit responses (each of which made the loop wait and
retry the same request) does not change the outcome: the run fails in both
sequences or succeeds with the same scan state, i.e. the same collected
statuses and cursor. -/
theorem tlRun_stripRL (type_ : FeedKind) (existing : List Int) :
    ∀ (resps : List Resp) (s : LoopState),
      resEqScan (tlRun type_ existing resps s)
        (tlRun type_ existing (stripRL resps) s) := by
  intro resps
  induction resps with
  | nil => intro s; exact rfl
  | cons r rest ih =>
    intro s
    obtain ⟨sc, p⟩ := s
    by_cases he : sc.early_termination
    · rw [tlRun_early_stop type_ existing _ sc p he]
      cases r with
      | err =>
        rw [show stripRL (Resp.err :: rest) = Resp.err :: stripRL rest from rfl,
          tlRun_early_stop type_ existing _ sc p he]
        exact rfl
      | rateLimit =>
        rw [show stripRL (Resp.rateLimit :: rest) = stripRL rest from rfl,
          tlRun_early_stop type_ existing _ sc p he]
        exact rfl
      | page l =>
        rw [show stripRL (Resp.page l :: rest) = Resp.page l :: stripRL rest from rfl,
          tlRun_early_stop type_ existing _ sc p he]
        exact rfl
    · cases r with
      | err =>
        rw [show stripRL (Resp.err :: rest) = Resp.err :: stripRL rest from rfl]
        simp only [tlRun, he, if_false, Bool.false_eq_true]
        trivial
      | rateLimit =>
        rw [show stripRL (Resp.rateLimit :: rest) = stripRL rest from rfl]
        simp only [tlRun, he, if_false, Bool.false_eq_true]
        refine resEqScan_prependTrace_left _ _ _ ?_
        refine resEqScan_trans _ (tlRun type_ existing rest ⟨sc, p⟩) _ ?_ (ih ⟨sc, p⟩)
        exact resEqFull_toScan _ _ (tlRun_pace_irrelevant type_ existing rest sc _ p)
      | page l =>
        rw [show stripRL (Resp.page l :: rest) = Resp.page l :: stripRL rest from rfl]
        by_cases hl : l = []
        · simp only [tlRun, he, hl, if_true, if_false, Bool.false_eq_true]
          exact rfl
        · simp only [tlRun, he, hl, if_false, Bool.false_eq_true]
          exact resEqScan_prependTrace_both _ _ _ _ (ih _)

/-- A run served no response other than pages and rate-limit signals never
fails: the rate-limit error is always recovered locally. -/
theorem tlRun_no_err_ok (type_ : FeedKind) (existing : List Int) :
    ∀ (resps : List Resp) (s : LoopState),
      (∀ r ∈ resps, r ≠ Resp.err) →
      ∃ tr s', tlRun type_ existing resps s = .ok (tr, s') := by
  intro resps
  induction resps with
  | nil => exact fun s _ => ⟨[], s, rfl⟩
  | cons r rest ih =>
    intro s hne
    obtain ⟨sc, p⟩ := s
    by_cases he : sc.early_termination
    · exact ⟨[], ⟨sc, p⟩, tlRun_early_stop type_ existing _ sc p he⟩
    · have hrest : ∀ r' ∈ rest, r' ≠ Resp.err := fun r' hr' => hne r' (List.mem_cons_of_mem _ hr')
      cases r with
      | err => exact absurd rfl (hne Resp.err (List.mem_cons_self _ _))
      | rateLimit =>
        obtain ⟨tr, s', h⟩ := ih ⟨sc, rateLimitRecover { p with request_index := p.request_index + 1 }⟩ hrest
        refine ⟨sc.max_id :: tr, s', ?_⟩
        simp only [tlRun, he, if_false, Bool.false_eq_true, h, prependTrace]
      | page l =>
        by_cases hl : l = []
        · exact ⟨[sc.max_id],
            ⟨sc, afterSuccessParams type_ { p with request_index := p.request_index + 1 }⟩,
            by simp only [tlRun, he, hl, if_true, if_false, Bool.false_eq_true]⟩
        · obtain ⟨tr, s', h⟩ := ih
            ⟨{ sc with
                statuses := sc.statuses ++ (processPage type_ sc.since_id existing sc.max_id l).1
                max_id := ((processPage type_ sc.since_id existing sc.max_id l).2).1
                early_termination := ((processPage type_ sc.since_id existing sc.max_id l).2).2 },
              afterSuccessParams type_ { p with request_index := p.request_index + 1 }⟩ hrest
          refine ⟨sc.max_id :: tr, s', ?_⟩
          simp only [tlRun, he, hl, if_false, Bool.false_eq_true, h, prependTrace]

/-- The first request of a successful run (if any request is made at all) is
issued with the `max_id` of the starting state. -/
theorem tlRun_trace_head (type_ : FeedKind) (existing : List Int)
    (resps : List Resp) (s : LoopState) (tr : List (Option Int)) (s' : LoopState)
    (h : tlRun type_ existing resps s = .ok (tr, s')) :
    tr = [] ∨ tr.head? = some s.scan.max_id := by
  cases resps with
  | nil =>
    simp only [tlRun, Except.ok.injEq, Prod.mk.injEq] at h
    exact Or.inl h.1.symm
  | cons r rest =>
    obtain ⟨sc, p⟩ := s
    by_cases he : sc.early_termination
    · rw [tlRun_early_stop type_ existing _ sc p he] at h
      left
      cases h
      rfl
    · cases r with
      | err =>
        simp only [tlRun, he, if_false, Bool.false_eq_true] at h
        exact Except.noConfusion h
      | rateLimit =>
        simp only [tlRun, he, if_false, Bool.false_eq_true] at h
        rcases hX : tlRun type_ existing rest
            ⟨sc, rateLimitRecover { p with request_index := p.request_index + 1 }⟩ with e | ts
        · rw [hX] at h; simp [prependTrace] at h
        · obtain ⟨tr0, s0⟩ := ts
          rw [hX] at h
          simp only [prependTrace, Except.ok.injEq, Prod.mk.injEq] at h
          right
          rw [← h.1]
          rfl
      | page l =>
        by_cases hl : l = []
        · simp only [tlRun, he, hl, if_true, if_false, Bool.false_eq_true,
            Except.ok.injEq, Prod.mk.injEq] at h
          right
          rw [← h.1]
          rfl
        · simp only [tlRun, he, hl, if_false, Bool.false_eq_true] at h
          rcases hX : tlRun type_ existing rest
              ⟨{ sc with
                  statuses := sc.statuses ++ (processPage type_ sc.since_id existing sc.max_id l).1
                  max_id := ((processPage type_ sc.since_id existing sc.max_id l).2).1
                  early_termination := ((processPage type_ sc.since_id existing sc.max_id l).2).2 },
                afterSuccessParams type_ { p with request_index := p.request_index + 1 }⟩ with e | ts
          · rw [hX] at h; simp [prependTrace] at h
          · obtain ⟨tr0, s0⟩ := ts
            rw [hX] at h
            simp only [prependTrace, Except.ok.injEq, Prod.mk.injEq] at h
            right
            rw [← h.1]
            rfl

theorem ensure_user_tweets (db : DB) (cache : Option TwitterUser) (u : RawUser) :
    (ensure_user db cache u).1.tweets = db.tweets := by
  cases cache with
  | none =>
    simp only [ensure_user, lookupOrCreateUser]
    cases db.users.find? (fun x => x.id == u.id) <;> rfl
  | some cu =>
    by_cases h : cu.id = u.id
    · simp [ensure_user, h]
    · simp only [ensure_user, h, if_false, lookupOrCreateUser]
      cases db.users.find? (fun x => x.id == u.id) <;> rfl

theorem addTweet_tweets (db : DB) (t : Tweet) :
    (addTweet db t).tweets = db.tweets ++ [t] := rfl

theorem tweetOfStatusFor_id (type_ : FeedKind) (username : String) (st : RawStatus) :
    (tweetOfStatusFor type_ username st).id = st.id := by
  by_cases hf : type_ = FeedKind.FAVORITES <;> simp [tweetOfStatusFor, hf, tweetOfStatus]

theorem insertStatuses_tweets_extend (type_ : FeedKind) (username : String)
    (existing : List Int) :
    ∀ (l : List RawStatus) (cache : Option TwitterUser) (db : DB),
      ∃ extra, (insertStatuses type_ username existing cache db l).tweets =
        db.tweets ++ extra := by
  intro l
  induction l with
  | nil => exact fun cache db => ⟨[], by simp [insertStatuses]⟩
  | cons st rest ih =>
    intro cache db
    by_cases h : st.id ∈ existing
    · simpa [insertStatuses, h] using ih cache db
    · simp only [insertStatuses, h, if_false]
      obtain ⟨extra, hx⟩ := ih (some (ensure_user db cache st.user).2)
        (addTweet (ensure_user db cache st.user).1 (tweetOfStatusFor type_ username st))
      refine ⟨tweetOfStatusFor type_ username st :: extra, ?_⟩
      rw [hx, addTweet_tweets, ensure_user_tweets]
      simp

theorem insertStatuses_mem_mono (type_ : FeedKind) (username : String)
    (existing : List Int) (l : List RawStatus) (cache : Option TwitterUser)
    (db : DB) (i : Int) (h : i ∈ get_existing_tweet_ids db) :
    i ∈ get_existing_tweet_ids (insertStatuses type_ username existing cache db l) := by
  obtain ⟨extra, hx⟩ := insertStatuses_tweets_extend type_ username existing l cache db
  simp only [get_existing_tweet_ids, hx, List.map_append, List.mem_append]
  exact Or.inl h

theorem insertStatuses_skip_all (type_ : FeedKind) (username : String)
    (existing : List Int) :
    ∀ (l : List RawStatus) (cache : Option TwitterUser) (db : DB),
      (∀ st ∈ l, st.id ∈ existing) →
      insertStatuses type_ username existing cache db l = db := by
  intro l
  induction l with
  | nil => exact fun cache db _ => rfl
  | cons st rest ih =>
    intro cache db hall
    have h : st.id ∈ existing := hall st (List.mem_cons_self _ _)
    simp only [insertStatuses, h, if_true]
    exact ih cache db (fun st' hst' => hall st' (List.mem_cons_of_mem _ hst'))

theorem insertStatuses_mem_inserted (type_ : FeedKind) (username : String)
    (existing : List Int) :
    ∀ (l : List RawStatus) (cache : Option TwitterUser) (db : DB) (st : RawStatus),
      st ∈ l → st.id ∉ existing →
      st.id ∈ get_existing_tweet_ids (insertStatuses type_ username existing cache db l) := by
  intro l
  induction l with
  | nil => intro _ _ _ h; cases h
  | cons hd rest ih =>
    intro cache db st hmem hnot
    rcases List.mem_cons.mp hmem with rfl | htl
    · simp only [insertStatuses, hnot, if_false]
      refine insertStatuses_mem_mono type_ username existing rest _ _ _ ?_
      simp only [get_existing_tweet_ids, addTweet_tweets, List.map_append, List.mem_append]
      right
      simp [tweetOfStatusFor_id]
    · by_cases h : hd.id ∈ existing
      · simp only [insertStatuses, h, if_true]
        exact ih cache db st htl hnot
      · simp only [insertStatuses, h, if_false]
        exact ih _ _ st htl hnot

theorem pagingPass_acc (type_ : FeedKind) (existing : List Int)
    (remote : FeedKind → Option Int → List RawStatus) :
    ∀ (fuel : Nat) (since_id max_id : Option Int) (acc : List RawStatus),
      ∃ tail, pagingPass type_ existing remote fuel since_id max_id acc =
        acc ++ tail := by
  intro fuel
  induction fuel with
  | zero => exact fun since_id max_id acc => ⟨[], by simp [pagingPass]⟩
  | succ f ih =>
    intro since_id max_id acc
    by_cases hp : remote type_ max_id = []
    · exact ⟨[], by simp [pagingPass, hp]⟩
    · by_cases he : ((processPage type_ since_id existing max_id (remote type_ max_id)).2).2
      · exact ⟨(processPage type_ since_id existing max_id (remote type_ max_id)).1,
          by simp [pagingPass, hp, he]⟩
      · obtain ⟨tail, ht⟩ := ih since_id
          ((processPage type_ since_id existing max_id (remote type_ max_id)).2).1
          (acc ++ (processPage type_ since_id existing max_id (remote type_ max_id)).1)
        refine ⟨(processPage type_ since_id existing max_id (remote type_ max_id)).1 ++ tail, ?_⟩
        simp only [pagingPass, hp, he, if_false, Bool.false_eq_true]
        rw [ht, List.append_assoc]

theorem processPage_fav_congr (existing existing' : List Int) :
    ∀ (max_id : Option Int) (page : List RawStatus),
      processPage FeedKind.FAVORITES none existing max_id page =
        processPage FeedKind.FAVORITES none existing' max_id page := by
  intro max_id page
  induction page generalizing max_id with
  | nil => rfl
  | cons st rest ih => simp [processPage, earlyStop_fav, ih]

theorem pagingPass_fav_congr (existing existing' : List Int)
    (remote : FeedKind → Option Int → List RawStatus) :
    ∀ (fuel : Nat) (max_id : Option Int) (acc : List RawStatus),
      pagingPass FeedKind.FAVORITES existing remote fuel none max_id acc =
        pagingPass FeedKind.FAVORITES existing' remote fuel none max_id acc := by
  intro fuel
  induction fuel with
  | zero => intro max_id acc; rfl
  | succ f ih =>
    intro max_id acc
    simp only [pagingPass, processPage_fav_congr existing existing' max_id, ih]

/-- All statuses collected by a FAVORITES pass end up stored: any that was
already present is still present, any new one is inserted. -/
theorem favorites_all_stored (username : String)
    (dbU : DB) (F1 : List RawStatus) (st : RawStatus) (hst : st ∈ F1) :
    st.id ∈ get_existing_tweet_ids
      (insertStatuses FeedKind.FAVORITES username (get_existing_tweet_ids dbU)
        none dbU F1) := by
  by_cases h : st.id ∈ get_existing_tweet_ids dbU
  · exact insertStatuses_mem_mono _ _ _ _ _ _ _ h
  · exact insertStatuses_mem_inserted _ _ _ _ _ _ _ hst h

theorem pagingPass_head_mem (type_ : FeedKind) (existing : List Int)
    (remote : FeedKind → Option Int → List RawStatus) (f : Nat)
    (st₀ : RawStatus) (tl : List RawStatus)
    (hpage : remote type_ none = st₀ :: tl)
    (hes : earlyStop type_ none existing st₀.id = false) :
    st₀ ∈ pagingPass type_ existing remote (f + 1) none none [] := by
  simp only [pagingPass]
  rw [hpage]
  simp only [List.cons_ne_nil, if_false, processPage, hes, Bool.false_eq_true,
    List.nil_append]
  by_cases h22 : ((processPage type_ none existing (updateMaxId none st₀.id) tl).2).2
  · simp [h22]
  · simp only [h22, if_false, Bool.false_eq_true]
    obtain ⟨tail, ht⟩ := pagingPass_acc type_ existing remote f none
      ((processPage type_ none existing (updateMaxId none st₀.id) tl).2).1
      (st₀ :: (processPage type_ none existing (updateMaxId none st₀.id) tl).1)
    rw [ht]
    exact List.mem_append_left _ (List.mem_cons_self _ _)

theorem pagingPass_early_head (type_ : FeedKind) (existing : List Int)
    (remote : FeedKind → Option Int → List RawStatus) (f : Nat)
    (st₀ : RawStatus) (tl : List RawStatus)
    (hpage : remote type_ none = st₀ :: tl)
    (hes : earlyStop type_ none existing st₀.id = true) :
    pagingPass type_ existing remote (f + 1) none none [] = [] := by
  simp only [pagingPass]
  rw [hpage]
  simp [processPage, hes]

/-- C3.  Running the full API ingestion (`archive_tweets`, a USER pass
followed by a FAVORITES pass) a second time against an unchanged remote and
the store produced by the first run changes nothing at all: in particular
zero new Records are inserted on the second run — every identity seen again
is either cut off by early termination (USER) or filtered out by the
membership check of line 252 before insertion (FAVORITES). -/
theorem c3_archive_tweets_idempotent
    (remote : FeedKind → Option Int → List RawStatus)
    (username : String) (fuel : Nat) (db : DB) :
    archive_tweets remote username fuel (archive_tweets remote username fuel db) =
      archive_tweets remote username fuel db := by
  have hDdef : archive_tweets remote username fuel db =
      insertStatuses FeedKind.FAVORITES username
        (get_existing_tweet_ids
          (insertStatuses FeedKind.USER username (get_existing_tweet_ids db) none db
            (pagingPass FeedKind.USER (get_existing_tweet_ids db) remote fuel none none [])))
        none
        (insertStatuses FeedKind.USER username (get_existing_tweet_ids db) none db
          (pagingPass FeedKind.USER (get_existing_tweet_ids db) remote fuel none none []))
        (pagingPass FeedKind.FAVORITES (get_existing_tweet_ids db) remote fuel none none []) :=
    rfl
  -- the second run's USER pass collects nothing
  have hU2 : pagingPass FeedKind.USER
      (get_existing_tweet_ids (archive_tweets remote username fuel db)) remote fuel
      none none [] = [] := by
    cases fuel with
    | zero => rfl
    | succ f =>
      rcases hpage : remote FeedKind.USER none with _ | ⟨st₀, tl⟩
      · simp [pagingPass, hpage]
      · have hmem : st₀.id ∈
            get_existing_tweet_ids (archive_tweets remote username (f + 1) db) := by
          by_cases hb : st₀.id ∈ get_existing_tweet_ids db
          · rw [hDdef]
            exact insertStatuses_mem_mono _ _ _ _ _ _ _
              (insertStatuses_mem_mono _ _ _ _ _ _ _ hb)
          · have hes : earlyStop FeedKind.USER none (get_existing_tweet_ids db)
                st₀.id = false := by
              simp [earlyStop_user, hb]
            have hcol := pagingPass_head_mem FeedKind.USER (get_existing_tweet_ids db)
              remote f st₀ tl hpage hes
            have hins : st₀.id ∈ get_existing_tweet_ids
                (insertStatuses FeedKind.USER username (get_existing_tweet_ids db)
                  none db
                  (pagingPass FeedKind.USER (get_existing_tweet_ids db) remote (f + 1)
                    none none [])) :=
              insertStatuses_mem_inserted _ _ _ _ _ _ _ hcol hb
            rw [hDdef]
            exact insertStatuses_mem_mono _ _ _ _ _ _ _ hins
        have hes2 : earlyStop FeedKind.USER none
            (get_existing_tweet_ids (archive_tweets remote username (f + 1) db))
            st₀.id = true := by
          simp [earlyStop_user, hmem]
        exact pagingPass_early_head FeedKind.USER _ remote f st₀ tl hpage hes2
  -- the second run's USER insertion is therefore a no-op, and the second
  -- FAVORITES pass collects the same statuses as the first, all known
  show archivePass remote username fuel FeedKind.FAVORITES
      (get_existing_tweet_ids (archive_tweets remote username fuel db))
      (archivePass remote username fuel FeedKind.USER
        (get_existing_tweet_ids (archive_tweets remote username fuel db))
        (archive_tweets remote username fuel db)) =
    archive_tweets remote username fuel db
  have husr : archivePass remote username fuel FeedKind.USER
      (get_existing_tweet_ids (archive_tweets remote username fuel db))
      (archive_tweets remote username fuel db) =
      archive_tweets remote username fuel db := by
    show insertStatuses FeedKind.USER username _ none _
        (pagingPass FeedKind.USER
          (get_existing_tweet_ids (archive_tweets remote username fuel db)) remote fuel
          none none []) = _
    rw [hU2]
    rfl
  rw [husr]
  show insertStatuses FeedKind.FAVORITES username
      (get_existing_tweet_ids (archive_tweets remote username fuel db)) none
      (archive_tweets remote username fuel db)
      (pagingPass FeedKind.FAVORITES
        (get_existing_tweet_ids (archive_tweets remote username fuel db)) remote fuel
        none none []) =
    archive_tweets remote username fuel db
  rw [pagingPass_fav_congr
    (get_existing_tweet_ids (archive_tweets remote username fuel db))
    (get_existing_tweet_ids db) remote fuel none []]
  refine insertStatuses_skip_all _ _ _ _ _ _ ?_
  intro st hst
  rw [hDdef]
  exact favorites_all_stored username _ _ st hst

/-- Invariant-carrying form of the ordering argument: with pages delivered
newest-first and pages lying strictly below the requested `max_id`, the
accumulated statuses stay strictly decreasing. -/
theorem pagingPass_chain (type_ : FeedKind) (existing : List Int)
    (remote : FeedKind → Option Int → List RawStatus)
    (hdec : ∀ k m, List.Chain' (fun a b : Int => b < a)
      ((remote k m).map (fun st => st.id)))
    (hbelow : ∀ k (m : Int), ∀ st ∈ remote k (some m), st.id < m) :
    ∀ (fuel : Nat) (since_id max_id : Option Int) (acc : List RawStatus),
      List.Chain' (fun a b => b < a) (acc.map (fun st => st.id)) →
      (∀ m, max_id = some m → ∀ st ∈ acc, m ≤ st.id) →
      (max_id = none → acc = []) →
      List.Chain' (fun a b => b < a)
        ((pagingPass type_ existing remote fuel since_id max_id acc).map
          (fun st => st.id)) := by
  intro fuel
  induction fuel with
  | zero => intro since_id max_id acc hacc _ _; simpa [pagingPass] using hacc
  | succ f ih =>
    intro since_id max_id acc hacc hbound hnone
    by_cases hp : remote type_ max_id = []
    · simpa [pagingPass, hp] using hacc
    · obtain ⟨suf, hsuf⟩ := processPage_fst_append type_ since_id existing max_id
        (remote type_ max_id)
      have hchainres : List.Chain' (fun a b : Int => b < a)
          ((processPage type_ since_id existing max_id (remote type_ max_id)).1.map
            (fun st => st.id)) := by
        have := hdec type_ max_id
        rw [← hsuf, List.map_append] at this
        exact (List.chain'_append.mp this).1
      have hsubmem : ∀ st ∈ (processPage type_ since_id existing max_id
          (remote type_ max_id)).1, st ∈ remote type_ max_id := by
        intro st hst
        rw [← hsuf]
        exact List.mem_append_left _ hst
      have hacc' : List.Chain' (fun a b : Int => b < a)
          ((acc ++ (processPage type_ since_id existing max_id
            (remote type_ max_id)).1).map (fun st => st.id)) := by
        rw [List.map_append]
        refine List.chain'_append.mpr ⟨hacc, hchainres, ?_⟩
        intro x hx y hy
        cases max_id with
        | none =>
          rw [hnone rfl] at hx
          simp at hx
        | some m =>
          obtain ⟨hgl, hxeq⟩ := List.mem_getLast?_eq_getLast hx
          have hxmem : x ∈ acc.map (fun st => st.id) := hxeq ▸ List.getLast_mem hgl
          obtain ⟨stx, hstx, hstxid⟩ := List.mem_map.mp hxmem
          have hy' : y ∈ (processPage type_ since_id existing (some m)
              (remote type_ (some m))).1.map (fun st => st.id) :=
            List.mem_of_mem_head? hy
          obtain ⟨sty, hsty, hstyid⟩ := List.mem_map.mp hy'
          have h1 : sty.id < m := hbelow type_ m sty (hsubmem sty hsty)
          have h2 : m ≤ stx.id := hbound m rfl stx hstx
          rw [← hstxid, ← hstyid]
          omega
      by_cases he : ((processPage type_ since_id existing max_id
          (remote type_ max_id)).2).2
      · simpa [pagingPass, hp, he] using hacc'
      · simp only [pagingPass, hp, he, if_false, Bool.false_eq_true]
        rcases processPage_maxId type_ since_id existing max_id (remote type_ max_id)
          with ⟨hnil, hmax⟩ | ⟨v, hv, hvc, hvle⟩
        · rw [hnil, hmax, List.append_nil]
          rw [hnil, List.append_nil] at hacc'
          exact ih since_id max_id acc hacc' hbound hnone
        · rw [hv]
          refine ih since_id (some v) _ hacc' ?_ (by intro h; cases h)
          intro m' hm' st hst
          injection hm' with hm'
          subst hm'
          rcases List.mem_append.mp hst with hina | hinr
          · cases max_id with
            | none =>
              rw [hnone rfl] at hina
              simp at hina
            | some m => exact le_trans (hvle m rfl) (hbound m rfl st hina)
          · exact hvc st hinr

theorem cresEqFull_toObs (a b : Except Unit (List (List Int) × CsvState)) :
    cresEqFull a b → cresEqObs a b := by
  match a, b with
  | .error _, .error _ => intro _; trivial
  | .ok (tr, s), .ok (tr', s') => exact fun h => h.2
  | .error _, .ok _ => intro h; cases h
  | .ok _, .error _ => intro h; cases h

theorem cresEqObs_trans (a b c : Except Unit (List (List Int) × CsvState)) :
    cresEqObs a b → cresEqObs b c → cresEqObs a c := by
  match a, b, c with
  | .error _, .error _, .error _ => intro _ _; trivial
  | .ok (_, s), .ok (_, s'), .ok (_, s'') =>
    exact fun h h' => ⟨h.1.trans h'.1, h.2.trans h'.2⟩
  | .error _, .error _, .ok _ => intro _ h; cases h
  | .error _, .ok _, _ => intro h; cases h
  | .ok _, .error _, _ => intro h; cases h
  | .ok _, .ok _, .error _ => intro _ h; cases h

theorem cresEqFull_prepend (g : List Int)
    (a b : Except Unit (List (List Int) × CsvState)) :
    cresEqFull a b → cresEqFull (prependCsvTrace g a) (prependCsvTrace g b) := by
  match a, b with
  | .error _, .error _ => intro _; trivial
  | .ok (tr, s), .ok (tr', s') => intro h; exact ⟨by rw [h.1], h.2⟩
  | .error _, .ok _ => intro h; cases h
  | .ok _, .error _ => intro h; cases h

theorem cresEqObs_prepend_left (g : List Int)
    (a b : Except Unit (List (List Int) × CsvState)) :
    cresEqObs a b → cresEqObs (prependCsvTrace g a) b := by
  match a, b with
  | .error _, .error _ => intro _; trivial
  | .ok (tr, s), .ok (tr', s') => exact fun h => h
  | .error _, .ok _ => intro h; cases h
  | .ok _, .error _ => intro h; cases h

theorem cresEqObs_prepend_both (g g' : List Int)
    (a b : Except Unit (List (List Int) × CsvState)) :
    cresEqObs a b → cresEqObs (prependCsvTrace g a) (prependCsvTrace g' b) := by
  match a, b with
  | .error _, .error _ => intro _; trivial
  | .ok (tr, s), .ok (tr', s') => exact fun h => h
  | .error _, .ok _ => intro h; cases h
  | .ok _, .error _ => intro h; cases h

/-- `request_index` never influences the slices requested, the store, or
whether the run fails. -/
theorem csvRun_request_index_irrelevant (csvIds : List Int) :
    ∀ (resps : List LResp) (ti ri ri' : Nat) (db : DB),
      cresEqFull (csvRun csvIds resps ⟨ti, ri, db⟩)
        (csvRun csvIds resps ⟨ti, ri', db⟩) := by
  intro resps
  induction resps with
  | nil => intro ti ri ri' db; exact ⟨rfl, rfl, rfl⟩
  | cons r rest ih =>
    intro ti ri ri' db
    by_cases hsl : (csvIds.drop ti).take 100 = []
    · simp only [csvRun, hsl, if_true]
      exact ⟨rfl, rfl, rfl⟩
    · cases r with
      | err => simp only [csvRun, hsl, if_false]; trivial
      | rateLimit =>
        simp only [csvRun, hsl, if_false]
        exact cresEqFull_prepend _ _ _ (ih ti _ _ db)
      | statuses l =>
        simp only [csvRun, hsl, if_false]
        exact cresEqFull_prepend _ _ _ (ih _ _ _ _)

theorem csvRun_guard_stop (csvIds : List Int) (resps : List LResp)
    (s : CsvState) (hsl : (csvIds.drop s.tweet_index).take 100 = []) :
    csvRun csvIds resps s = .ok ([], s) := by
  cases resps with
  | nil => rfl
  | cons r rest => simp [csvRun, hsl]

/-- Removing rate-limit responses from a bulk-lookup run does not change
which groups end up inserted nor the final store. -/
theorem csvRun_stripRL (csvIds : List Int) :
    ∀ (resps : List LResp) (s : CsvState),
      cresEqObs (csvRun csvIds resps s)
        (csvRun csvIds (stripCsvRL resps) s) := by
  intro resps
  induction resps with
  | nil => intro s; exact ⟨rfl, rfl⟩
  | cons r rest ih =>
    intro s
    obtain ⟨ti, ri, db⟩ := s
    by_cases hsl : (csvIds.drop ti).take 100 = []
    · rw [csvRun_guard_stop csvIds _ _ hsl]
      cases r with
      | err =>
        rw [show stripCsvRL (LResp.err :: rest) = LResp.err :: stripCsvRL rest from rfl,
          csvRun_guard_stop csvIds _ _ hsl]
        exact ⟨rfl, rfl⟩
      | rateLimit =>
        rw [show stripCsvRL (LResp.rateLimit :: rest) = stripCsvRL rest from rfl,
          csvRun_guard_stop csvIds _ _ hsl]
        exact ⟨rfl, rfl⟩
      | statuses l =>
        rw [show stripCsvRL (LResp.statuses l :: rest) =
            LResp.statuses l :: stripCsvRL rest from rfl,
          csvRun_guard_stop csvIds _ _ hsl]
        exact ⟨rfl, rfl⟩
    · cases r with
      | err =>
        rw [show stripCsvRL (LResp.err :: rest) = LResp.err :: stripCsvRL rest from rfl]
        simp only [csvRun, hsl, if_false]
        trivial
      | rateLimit =>
        rw [show stripCsvRL (LResp.rateLimit :: rest) = stripCsvRL rest from rfl]
        simp only [csvRun, hsl, if_false]
        refine cresEqObs_prepend_left _ _ _ ?_
        refine cresEqObs_trans _ (csvRun csvIds rest ⟨ti, ri, db⟩) _ ?_ (ih ⟨ti, ri, db⟩)
        exact cresEqFull_toObs _ _ (csvRun_request_index_irrelevant csvIds rest ti _ ri db)
      | statuses l =>
        rw [show stripCsvRL (LResp.statuses l :: rest) =
            LResp.statuses l :: stripCsvRL rest from rfl]
        simp only [csvRun, hsl, if_false]
        exact cresEqObs_prepend_both _ _ _ _ (ih _)

/-- A bulk-lookup run served no response other than statuses and rate-limit
signals never fails. -/
theorem csvRun_no_err_ok (csvIds : List Int) :
    ∀ (resps : List LResp) (s : CsvState),
      (∀ r ∈ resps, r ≠ LResp.err) →
      ∃ tr s', csvRun csvIds resps s = .ok (tr, s') := by
  intro resps
  induction resps with
  | nil => exact fun s _ => ⟨[], s, rfl⟩
  | cons r rest ih =>
    intro s hne
    by_cases hsl : (csvIds.drop s.tweet_index).take 100 = []
    · exact ⟨[], s, csvRun_guard_stop csvIds _ _ hsl⟩
    · have hrest : ∀ r' ∈ rest, r' ≠ LResp.err :=
        fun r' hr' => hne r' (List.mem_cons_of_mem _ hr')
      cases r with
      | err => exact absurd rfl (hne LResp.err (List.mem_cons_self _ _))
      | rateLimit =>
        obtain ⟨tr, s', h⟩ := ih { s with request_index := 60 - 1 } hrest
        refine ⟨(csvIds.drop s.tweet_index).take 100 :: tr, s', ?_⟩
        simp only [csvRun, hsl, if_false, h, prependCsvTrace]
      | statuses l =>
        obtain ⟨tr, s', h⟩ := ih
          { tweet_index := s.tweet_index + 100
            request_index := s.request_index + 1
            db := insertLookupGroup s.db l } hrest
        refine ⟨(csvIds.drop s.tweet_index).take 100 :: tr, s', ?_⟩
        simp only [csvRun, hsl, if_false, h, prependCsvTrace]

/-- The first request of a successful bulk-lookup run (if any) asks for the
slice at the starting `tweet_index`. -/
theorem csvRun_trace_head (csvIds : List Int) (resps : List LResp)
    (s : CsvState) (tr : List (List Int)) (s' : CsvState)
    (h : csvRun csvIds resps s = .ok (tr, s')) :
    tr = [] ∨ tr.head? = some ((csvIds.drop s.tweet_index).take 100) := by
  cases resps with
  | nil =>
    simp only [csvRun, Except.ok.injEq, Prod.mk.injEq] at h
    exact Or.inl h.1.symm
  | cons r rest =>
    by_cases hsl : (csvIds.drop s.tweet_index).take 100 = []
    · rw [csvRun_guard_stop csvIds _ _ hsl] at h
      simp only [Except.ok.injEq, Prod.mk.injEq] at h
      exact Or.inl h.1.symm
    · cases r with
      | err =>
        simp only [csvRun, hsl, if_false] at h
        exact Except.noConfusion h
      | rateLimit =>
        simp only [csvRun, hsl, if_false] at h
        rcases hX : csvRun csvIds rest { s with request_index := 60 - 1 } with e | ts
        · rw [hX] at h; simp [prependCsvTrace] at h
        · obtain ⟨tr0, s0⟩ := ts
          rw [hX] at h
          simp only [prependCsvTrace, Except.ok.injEq, Prod.mk.injEq] at h
          right
          rw [← h.1]
          rfl
      | statuses l =>
        simp only [csvRun, hsl, if_false] at h
        rcases hX : csvRun csvIds rest
            { tweet_index := s.tweet_index + 100
              request_index := s.request_index + 1
              db := insertLookupGroup s.db l } with e | ts
        · rw [hX] at h; simp [prependCsvTrace] at h
        · obtain ⟨tr0, s0⟩ := ts
          rw [hX] at h
          simp only [prependCsvTrace, Except.ok.injEq, Prod.mk.injEq] at h
          right
          rw [← h.1]
          rfl

theorem chunksAux_congr :
    ∀ (f g : Nat) (l : List Int), l.length < f → l.length < g →
      chunksAux f l = chunksAux g l := by
  intro f
  induction f with
  | zero => intro g l hf _; omega
  | succ f' ih =>
    intro g l hf hg
    cases l with
    | nil => cases g with | zero => omega | succ g' => rfl
    | cons x xs =>
      cases g with
      | zero => omega
      | succ g' =>
        have hlen : ((x :: xs).drop 100).length = (x :: xs).length - 100 := by
          simp [List.length_drop]
        simp only [List.length_cons] at hf hg
        simp only [chunksAux]
        rw [ih g' ((x :: xs).drop 100)
          (by rw [hlen]; simp only [List.length_cons]; omega)
          (by rw [hlen]; simp only [List.length_cons]; omega)]

theorem chunks_nil : chunks [] = [] := rfl

theorem chunks_cons_of_ne (l : List Int) (h : l ≠ []) :
    chunks l = l.take 100 :: chunks (l.drop 100) := by
  obtain ⟨x, xs, rfl⟩ := List.exists_cons_of_ne_nil h
  show chunksAux ((x :: xs).length + 1) (x :: xs) = _
  simp only [chunksAux, List.length_cons]
  rw [chunksAux_congr (xs.length + 1) ((x :: xs).drop 100).length.succ
    ((x :: xs).drop 100) (by simp [List.length_drop]; omega) (Nat.lt_succ_self _)]
  rfl

theorem chunks_join_aux :
    ∀ (n : Nat) (l : List Int), l.length ≤ n → (chunks l).flatten = l := by
  intro n
  induction n with
  | zero =>
    intro l hl
    have : l = [] := List.eq_nil_of_length_eq_zero (Nat.le_zero.mp hl)
    simp [this, chunks_nil]
  | succ n' ih =>
    intro l hl
    by_cases h : l = []
    · simp [h, chunks_nil]
    · rw [chunks_cons_of_ne l h, List.flatten_cons,
        ih (l.drop 100) (by simp [List.length_drop]; omega), List.take_append_drop]

/-- The groups are exactly the csv-only ids in order: their concatenation
is the id list. -/
theorem chunks_flatten (l : List Int) : (chunks l).flatten = l :=
  chunks_join_aux l.length l le_rfl

theorem chunks_mem_aux :
    ∀ (n : Nat) (l : List Int), l.length ≤ n →
      ∀ g ∈ chunks l, g ≠ [] ∧ g.length ≤ 100 := by
  intro n
  induction n with
  | zero =>
    intro l hl g hg
    have : l = [] := List.eq_nil_of_length_eq_zero (Nat.le_zero.mp hl)
    rw [this, chunks_nil] at hg
    cases hg
  | succ n' ih =>
    intro l hl g hg
    by_cases h : l = []
    · rw [h, chunks_nil] at hg; cases hg
    · rw [chunks_cons_of_ne l h] at hg
      rcases List.mem_cons.mp hg with rfl | hg
      · refine ⟨?_, ?_⟩
        · intro htake
          rcases List.take_eq_nil_iff.mp htake with h' | h'
          · exact absurd h' (by omega)
          · exact h h'
        · rw [List.length_take]
          exact Nat.min_le_left _ _
      · refine ih (l.drop 100) ?_ g hg
        have : (l.drop 100).length = l.length - 100 := by simp [List.length_drop]
        omega

/-- Every group the loop builds is a non-empty slice of at most 100 ids. -/
theorem chunks_mem (l : List Int) (g : List Int) (hg : g ∈ chunks l) :
    g ≠ [] ∧ g.length ≤ 100 :=
  chunks_mem_aux l.length l le_rfl g hg

theorem insertLookupGroupGo_tweets :
    ∀ (sts : List RawStatus) (cache : Option TwitterUser) (db : DB),
      (insertLookupGroupGo cache db sts).tweets =
        db.tweets ++ sts.map tweetOfStatus := by
  intro sts
  induction sts with
  | nil => intro cache db; simp [insertLookupGroupGo]
  | cons st rest ih =>
    intro cache db
    simp only [insertLookupGroupGo, List.map_cons]
    rw [ih, addTweet_tweets, ensure_user_tweets]
    simp

theorem insertLookupGroup_tweets (db : DB) (sts : List RawStatus) :
    (insertLookupGroup db sts).tweets = db.tweets ++ sts.map tweetOfStatus :=
  insertLookupGroupGo_tweets sts none db

theorem filterMap_remote_ids (remote : Int → Option RawStatus)
    (hsound : ∀ i st, remote i = some st → st.id = i) :
    ∀ (g : List Int),
      (g.filterMap remote).map (fun st => st.id) =
        g.filter (fun i => (remote i).isSome) := by
  intro g
  induction g with
  | nil => rfl
  | cons i rest ih =>
    rcases hr : remote i with _ | st
    · simpa [List.filterMap_cons, hr, List.filter_cons] using ih
    · have : st.id = i := hsound i st hr
      simp [List.filterMap_cons, hr, List.filter_cons, this, ih]

theorem LookupStatuses_ok_of_valid (remote : Int → Option RawStatus)
    (g : List Int) (hne : g ≠ []) (hlen : g.length ≤ 100) :
    LookupStatuses remote g = .ok (g.filterMap remote) := by
  have : ¬(g = [] ∨ 100 < g.length) := by
    push_neg
    exact ⟨hne, by omega⟩
  simp [LookupStatuses, this]

/-- Fault-free bulk-lookup over valid groups: never an error, and the
stored id list is extended by exactly the requested ids the remote knows. -/
theorem runGroups_ids (remote : Int → Option RawStatus)
    (hsound : ∀ i st, remote i = some st → st.id = i) :
    ∀ (gs : List (List Int)) (db : DB),
      (∀ g ∈ gs, g ≠ [] ∧ g.length ≤ 100) →
      ∃ db', runGroups remote db gs = .ok db' ∧
        get_existing_tweet_ids db' = get_existing_tweet_ids db ++
          (gs.flatten.filter (fun i => (remote i).isSome)) := by
  intro gs
  induction gs with
  | nil => exact fun db _ => ⟨db, rfl, by simp⟩
  | cons g rest ih =>
    intro db hval
    obtain ⟨hne, hlen⟩ := hval g (List.mem_cons_self _ _)
    obtain ⟨db', hok, hids⟩ := ih (insertLookupGroup db (g.filterMap remote))
      (fun g' hg' => hval g' (List.mem_cons_of_mem _ hg'))
    refine ⟨db', ?_, ?_⟩
    · simp only [runGroups, LookupStatuses_ok_of_valid remote g hne hlen]
      exact hok
    · rw [hids]
      have : get_existing_tweet_ids (insertLookupGroup db (g.filterMap remote)) =
          get_existing_tweet_ids db ++ g.filter (fun i => (remote i).isSome) := by
        simp only [get_existing_tweet_ids, insertLookupGroup_tweets, List.map_append]
        rw [List.map_map]
        rw [show ((fun t : Tweet => t.id) ∘ tweetOfStatus) = fun st : RawStatus => st.id from rfl]
        rw [filterMap_remote_ids remote hsound g]
      rw [this, List.flatten_cons, List.filter_append, List.append_assoc]

/-- Fault-free bulk-lookup over valid groups never errors (no soundness of
the remote needed). -/
theorem runGroups_ok (remote : Int → Option RawStatus) :
    ∀ (gs : List (List Int)) (db : DB),
      (∀ g ∈ gs, g ≠ [] ∧ g.length ≤ 100) →
      ∃ db', runGroups remote db gs = .ok db' := by
  intro gs
  induction gs with
  | nil => exact fun db _ => ⟨db, rfl⟩
  | cons g rest ih =>
    intro db hval
    obtain ⟨hne, hlen⟩ := hval g (List.mem_cons_self _ _)
    obtain ⟨db', hok⟩ := ih (insertLookupGroup db (g.filterMap remote))
      (fun g' hg' => hval g' (List.mem_cons_of_mem _ hg'))
    refine ⟨db', ?_⟩
    simp only [runGroups, LookupStatuses_ok_of_valid remote g hne hlen]
    exact hok

/-- Every tweet present after the bulk-lookup loop either was present
before it or carries an id the remote knows. -/
theorem runGroups_tweets_source (remote : Int → Option RawStatus)
    (hsound : ∀ i st, remote i = some st → st.id = i) :
    ∀ (gs : List (List Int)) (db db' : DB),
      runGroups remote db gs = .ok db' →
      ∀ t ∈ db'.tweets, t ∈ db.tweets ∨ (remote t.id).isSome := by
  intro gs
  induction gs with
  | nil =>
    intro db db' h t ht
    simp only [runGroups, Except.ok.injEq] at h
    subst h
    exact Or.inl ht
  | cons g rest ih =>
    intro db db' h t ht
    rcases hL : LookupStatuses remote g with e | sts
    · rw [runGroups, hL] at h; exact Except.noConfusion h
    · rw [runGroups, hL] at h
      rcases ih (insertLookupGroup db sts) db' h t ht with hin | hr
      · rw [show (insertLookupGroup db sts).tweets =
            db.tweets ++ sts.map tweetOfStatus from insertLookupGroup_tweets db sts]
          at hin
        rcases List.mem_append.mp hin with hin | hin
        · exact Or.inl hin
        · obtain ⟨st, hst, rfl⟩ := List.mem_map.mp hin
          right
          have hsts : sts = g.filterMap remote := by
            by_cases hv : g = [] ∨ 100 < g.length
            · simp [LookupStatuses, hv] at hL
            · simp [LookupStatuses, hv] at hL
              exact hL.symm
          rw [hsts] at hst
          obtain ⟨i, _, hri⟩ := List.mem_filterMap.mp hst
          have : st.id = i := hsound i st hri
          show (remote (tweetOfStatus st).id).isSome
          rw [show (tweetOfStatus st).id = st.id from rfl, this, hri]
          rfl
      · exact Or.inr hr

theorem upsert_keys (k : Int) (v : CSVTweet) :
    ∀ m : List (Int × CSVTweet),
      (upsert m k v).map (fun p => p.1) =
        if k ∈ m.map (fun p => p.1) then m.map (fun p => p.1)
        else m.map (fun p => p.1) ++ [k] := by
  intro m
  induction m with
  | nil => simp [upsert]
  | cons p rest ih =>
    by_cases hpk : p.1 = k
    · simp [upsert, hpk]
    · simp only [upsert, hpk, if_false, List.map_cons, ih]
      by_cases hk : k ∈ rest.map (fun p => p.1)
      · simp [hk, Ne.symm hpk]
      · simp [hk, Ne.symm hpk]

theorem upsert_keys_nodup (k : Int) (v : CSVTweet) (m : List (Int × CSVTweet))
    (h : (m.map (fun p => p.1)).Nodup) :
    ((upsert m k v).map (fun p => p.1)).Nodup := by
  rw [upsert_keys]
  by_cases hk : k ∈ m.map (fun p => p.1)
  · simpa [hk] using h
  · simp only [hk, if_false]
    simp [List.nodup_append, h, hk]

theorem upsert_mem (k : Int) (v : CSVTweet) :
    ∀ (m : List (Int × CSVTweet)) (p : Int × CSVTweet),
      p ∈ upsert m k v → p ∈ m ∨ p = (k, v) := by
  intro m
  induction m with
  | nil =>
    intro p hp
    simp [upsert] at hp
    exact Or.inr hp
  | cons q rest ih =>
    intro p hp
    by_cases hqk : q.1 = k
    · simp only [upsert, hqk, if_true] at hp
      rcases List.mem_cons.mp hp with rfl | hp
      · exact Or.inr rfl
      · exact Or.inl (List.mem_cons_of_mem _ hp)
    · simp only [upsert, hqk, if_false] at hp
      rcases List.mem_cons.mp hp with rfl | hp
      · exact Or.inl (List.mem_cons_self _ _)
      · rcases ih p hp with h | h
        · exact Or.inl (List.mem_cons_of_mem _ h)
        · exact Or.inr h

theorem lookupEntry_upsert_self (k : Int) (v : CSVTweet) :
    ∀ m : List (Int × CSVTweet), lookupEntry (upsert m k v) k = some v := by
  intro m
  induction m with
  | nil => simp [upsert, lookupEntry, List.find?]
  | cons p rest ih =>
    by_cases hpk : p.1 = k
    · simp [upsert, hpk, lookupEntry, List.find?]
    · simp only [upsert, hpk, if_false]
      simp only [lookupEntry, List.find?] at ih ⊢
      rw [show (p.1 == k) = false from beq_eq_false_iff_ne.mpr hpk]
      exact ih

theorem lookupEntry_upsert_other (k j : Int) (v : CSVTweet) (hjk : j ≠ k) :
    ∀ m : List (Int × CSVTweet), lookupEntry (upsert m k v) j = lookupEntry m j := by
  intro m
  induction m with
  | nil =>
    simp [upsert, lookupEntry, List.find?,
      show (k == j) = false from beq_eq_false_iff_ne.mpr (Ne.symm hjk)]
  | cons p rest ih =>
    by_cases hpk : p.1 = k
    · simp only [upsert, hpk, if_true]
      simp only [lookupEntry, List.find?]
      rw [show (k == j) = false from beq_eq_false_iff_ne.mpr (Ne.symm hjk),
        show (p.1 == j) = false from beq_eq_false_iff_ne.mpr (hpk ▸ Ne.symm hjk)]
    · simp only [upsert, hpk, if_false]
      simp only [lookupEntry, List.find?] at ih ⊢
      cases hb : p.1 == j
      · exact ih
      · rfl

theorem upsert_keys_mem (k : Int) (v : CSVTweet) (m : List (Int × CSVTweet))
    (k' : Int) (h : k' ∈ (upsert m k v).map (fun p => p.1)) :
    k' ∈ m.map (fun p => p.1) ∨ k' = k := by
  rw [upsert_keys] at h
  by_cases hk : k ∈ m.map (fun p => p.1)
  · rw [if_pos hk] at h
    exact Or.inl h
  · rw [if_neg hk] at h
    rcases List.mem_append.mp h with h | h
    · exact Or.inl h
    · simp at h
      exact Or.inr h

theorem csvScan_go_keys_nodup (username : String) (existing : List Int) :
    ∀ (rows : List CsvRow) (m : List (Int × CSVTweet)),
      ((m.map (fun p => p.1)).Nodup) →
      (((rows.foldl (fun m r =>
          if r.tweet_id ∈ existing then m
          else upsert m r.tweet_id (csvTweetOfRow username r)) m).map
        (fun p => p.1)).Nodup) := by
  intro rows
  induction rows with
  | nil => exact fun m h => h
  | cons r rest ih =>
    intro m h
    simp only [List.foldl_cons]
    by_cases hex : r.tweet_id ∈ existing
    · rw [if_pos hex]
      exact ih m h
    · rw [if_neg hex]
      exact ih _ (upsert_keys_nodup _ _ _ h)

/-- The keys of the CSV map are pairwise distinct (it is a dict). -/
theorem csvScan_keys_nodup (username : String) (existing : List Int)
    (rows : List CsvRow) :
    ((csvScan username existing rows).map (fun p => p.1)).Nodup :=
  csvScan_go_keys_nodup username existing rows [] (by simp)

theorem csvScan_go_keys_notex (username : String) (existing : List Int) :
    ∀ (rows : List CsvRow) (m : List (Int × CSVTweet)),
      (∀ k ∈ m.map (fun p => p.1), k ∉ existing) →
      ∀ k ∈ (rows.foldl (fun m r =>
          if r.tweet_id ∈ existing then m
          else upsert m r.tweet_id (csvTweetOfRow username r)) m).map (fun p => p.1),
        k ∉ existing := by
  intro rows
  induction rows with
  | nil => exact fun m h => h
  | cons r rest ih =>
    intro m h
    simp only [List.foldl_cons]
    by_cases hex : r.tweet_id ∈ existing
    · rw [if_pos hex]
      exact ih m h
    · rw [if_neg hex]
      refine ih _ ?_
      intro k hk
      rcases upsert_keys_mem _ _ _ _ hk with hk | rfl
      · exact h k hk
      · exact hex

/-- No key of the CSV map is an already-known identity. -/
theorem csvScan_keys_notex (username : String) (existing : List Int)
    (rows : List CsvRow) :
    ∀ k ∈ (csvScan username existing rows).map (fun p => p.1), k ∉ existing :=
  csvScan_go_keys_notex username existing rows [] (by simp)

theorem csvScan_go_entry_id (username : String) (existing : List Int) :
    ∀ (rows : List CsvRow) (m : List (Int × CSVTweet)),
      (∀ p ∈ m, (p.2).id = p.1) →
      ∀ p ∈ rows.foldl (fun m r =>
          if r.tweet_id ∈ existing then m
          else upsert m r.tweet_id (csvTweetOfRow username r)) m,
        (p.2).id = p.1 := by
  intro rows
  induction rows with
  | nil => exact fun m h => h
  | cons r rest ih =>
    intro m h
    simp only [List.foldl_cons]
    by_cases hex : r.tweet_id ∈ existing
    · rw [if_pos hex]
      exact ih m h
    · rw [if_neg hex]
      refine ih _ ?_
      intro p hp
      rcases upsert_mem _ _ _ p hp with hp | rfl
      · exact h p hp
      · rfl

/-- Every entry of the CSV map keys the id of the CSVTweet it holds. -/
theorem csvScan_entry_id (username : String) (existing : List Int)
    (rows : List CsvRow) :
    ∀ p ∈ csvScan username existing rows, (p.2).id = p.1 :=
  csvScan_go_entry_id username existing rows [] (by simp)

theorem csvScan_go_entry_stays (username : String) (existing : List Int)
    (i : Int) (c : CSVTweet) :
    ∀ (rows : List CsvRow) (m : List (Int × CSVTweet)),
      lookupEntry m i = some c →
      (∀ r ∈ rows, r.tweet_id = i → csvTweetOfRow username r = c) →
      lookupEntry (rows.foldl (fun m r =>
        if r.tweet_id ∈ existing then m
        else upsert m r.tweet_id (csvTweetOfRow username r)) m) i = some c := by
  intro rows
  induction rows with
  | nil => exact fun m h _ => h
  | cons r rest ih =>
    intro m h huniq
    simp only [List.foldl_cons]
    have huniq' : ∀ r' ∈ rest, r'.tweet_id = i → csvTweetOfRow username r' = c :=
      fun r' hr' => huniq r' (List.mem_cons_of_mem _ hr')
    by_cases hex : r.tweet_id ∈ existing
    · rw [if_pos hex]
      exact ih m h huniq'
    · rw [if_neg hex]
      by_cases hri : r.tweet_id = i
      · refine ih _ ?_ huniq'
        rw [hri, huniq r (List.mem_cons_self _ _) hri]
        exact lookupEntry_upsert_self i c m
      · refine ih _ ?_ huniq'
        rw [lookupEntry_upsert_other r.tweet_id i _ (Ne.symm hri)]
        exact h

theorem csvScan_go_entry_sets (username : String) (existing : List Int)
    (i : Int) (c : CSVTweet) (hnotex : i ∉ existing) :
    ∀ (rows : List CsvRow) (m : List (Int × CSVTweet)),
      (∃ r ∈ rows, r.tweet_id = i) →
      (∀ r ∈ rows, r.tweet_id = i → csvTweetOfRow username r = c) →
      lookupEntry (rows.foldl (fun m r =>
        if r.tweet_id ∈ existing then m
        else upsert m r.tweet_id (csvTweetOfRow username r)) m) i = some c := by
  intro rows
  induction rows with
  | nil =>
    intro m hex _
    obtain ⟨r, hr, _⟩ := hex
    cases hr
  | cons r rest ih =>
    intro m hex huniq
    simp only [List.foldl_cons]
    have huniq' : ∀ r' ∈ rest, r'.tweet_id = i → csvTweetOfRow username r' = c :=
      fun r' hr' => huniq r' (List.mem_cons_of_mem _ hr')
    by_cases hri : r.tweet_id = i
    · rw [if_neg (hri ▸ hnotex)]
      refine csvScan_go_entry_stays username existing i c rest _ ?_ huniq'
      rw [hri, huniq r (List.mem_cons_self _ _) hri]
      exact lookupEntry_upsert_self i c m
    · have hex' : ∃ r' ∈ rest, r'.tweet_id = i := by
        obtain ⟨r', hr', hid⟩ := hex
        rcases List.mem_cons.mp hr' with rfl | hr'
        · exact absurd hid hri
        · exact ⟨r', hr', hid⟩
      by_cases hexr : r.tweet_id ∈ existing
      · rw [if_pos hexr]
        exact ih m hex' huniq'
      · rw [if_neg hexr]
        exact ih _ hex' huniq'

/-- The CSV map holds, at a not-already-known id carried by a unique row,
exactly the CSVTweet built from that row. -/
theorem csvScan_entry (username : String) (existing : List Int)
    (rows : List CsvRow) (r42 : CsvRow) (i : Int)
    (hmem : r42 ∈ rows) (hid : r42.tweet_id = i)
    (huniq : ∀ r ∈ rows, r.tweet_id = i → r = r42)
    (hnotex : i ∉ existing) :
    lookupEntry (csvScan username existing rows) i =
      some (csvTweetOfRow username r42) :=
  csvScan_go_entry_sets username existing i (csvTweetOfRow username r42) hnotex rows []
    ⟨r42, hmem, hid⟩ (fun r hr hri => by rw [huniq r hr hri])

theorem csvOnlyPhase_go (ex : List Int) (U : List TwitterUser) :
    ∀ (m : List (Int × CSVTweet)) (acc : DB), acc.users = U →
      (m.foldl (fun a p => if p.1 ∈ ex then a else insertCsvOnly a p.2) acc).tweets =
        acc.tweets ++
          (m.filter (fun p => !(ex.contains p.1))).map (fun p => linkByHandle U p.2) ∧
      (m.foldl (fun a p => if p.1 ∈ ex then a else insertCsvOnly a p.2) acc).users =
        U := by
  intro m
  induction m with
  | nil => intro acc hU; simp [hU]
  | cons p rest ih =>
    intro acc hU
    simp only [List.foldl_cons, List.filter_cons]
    by_cases hex : p.1 ∈ ex
    · rw [if_pos hex, show (!(ex.contains p.1)) = false by simp [hex]]
      exact ih acc hU
    · rw [if_neg hex, show (!(ex.contains p.1)) = true by simp [hex]]
      obtain ⟨h1, h2⟩ := ih (insertCsvOnly acc p.2)
        (by simp [insertCsvOnly, addTweet, hU])
      refine ⟨?_, h2⟩
      rw [h1]
      simp [insertCsvOnly, addTweet, hU]

/-- Closed form of the CSV-only phase: the store keeps its authors and
gains, in map order, one standalone tweet per still-unknown entry. -/
theorem csvOnlyPhase_eq (db : DB) (m : List (Int × CSVTweet)) :
    (csvOnlyPhase db m).tweets = db.tweets ++
      (m.filter (fun p => !((get_existing_tweet_ids db).contains p.1))).map
        (fun p => linkByHandle db.users p.2) ∧
    (csvOnlyPhase db m).users = db.users :=
  csvOnlyPhase_go (get_existing_tweet_ids db) db.users m db rfl

theorem lookupEntry_mem (m : List (Int × CSVTweet)) (i : Int) (c : CSVTweet)
    (h : lookupEntry m i = some c) : (i, c) ∈ m := by
  simp only [lookupEntry, Option.map_eq_some'] at h
  obtain ⟨q, hq, hq2⟩ := h
  have hmem : q ∈ m := List.mem_of_find?_eq_some hq
  have hkey := List.find?_some hq
  have h1 : q.1 = i := by simpa using hkey
  have h2 : q = (i, c) := Prod.ext h1 hq2
  rwa [h2] at hmem

theorem filter_key_of_nodup :
    ∀ (m : List (Int × CSVTweet)) (i : Int) (c : CSVTweet)
      (q : Int × CSVTweet → Bool),
      ((m.map (fun p => p.1)).Nodup) → lookupEntry m i = some c →
      q (i, c) = true →
      m.filter (fun p => p.1 == i && q p) = [(i, c)] := by
  intro m
  induction m with
  | nil => intro i c q _ h _; simp [lookupEntry, List.find?] at h
  | cons p rest ih =>
    intro i c q hnodup hl hq
    rw [List.map_cons] at hnodup
    obtain ⟨hnd1, hnd2⟩ := List.nodup_cons.mp hnodup
    by_cases hpi : p.1 = i
    · have hpc : p = (i, c) := by
        simp only [lookupEntry, List.find?,
          show (p.1 == i) = true from beq_iff_eq.mpr hpi] at hl
        simp only [Option.map_some', Option.some.injEq] at hl
        exact Prod.ext hpi hl
      rw [List.filter_cons, hpc]
      simp only [show ((i, c).1 == i && q (i, c)) = true by simp [hq], if_true]
      congr 1
      refine List.filter_eq_nil_iff.mpr ?_
      intro x hx
      have hxi : x.1 ≠ i := by
        intro hcon
        exact hnd1 (hpi ▸ hcon ▸ List.mem_map_of_mem (fun p => p.1) hx)
      simp [hxi]
    · have hl' : lookupEntry rest i = some c := by
        simpa only [lookupEntry, List.find?,
          show (p.1 == i) = false from beq_eq_false_iff_ne.mpr hpi] using hl
      rw [List.filter_cons,
        show (p.1 == i && q p) = false by
          simp [beq_eq_false_iff_ne.mpr hpi]]
      simp only [if_false, Bool.false_eq_true]
      exact ih i c q hnd2 hl' hq

theorem linkByHandle_id (users : List TwitterUser) (c : CSVTweet) :
    (linkByHandle users c).id = c.id := by
  simp only [linkByHandle]
  cases users.find? (fun u => u.screen_name == c.username) <;>
    simp [Tweet.make_from_csvtweet]

theorem processedItems_append (a b : List DlEvent) :
    processedItems (a ++ b) = processedItems a ++ processedItems b :=
  List.filterMap_append _ _ _

theorem dlPass_processed (f : α → DlItem) :
    ∀ (i : Nat) (l : List α), processedItems (dlPass f i l) = l.map f := by
  intro i l
  induction l generalizing i with
  | nil => rfl
  | cons x xs ih =>
    by_cases h : i % 100 = 0 <;>
      simp [dlPass, h, processedItems, List.filterMap_cons, ih (i + 1)] <;>
      simpa [processedItems] using ih (i + 1)

theorem commitCountsAux_dlPass (f : α → DlItem) :
    ∀ (l : List α) (i c : Nat) (rest : List DlEvent),
      commitCountsAux (dlPass f i l ++ rest) c =
        batchMarks i c l.length ++ commitCountsAux rest (c + l.length) := by
  intro l
  induction l with
  | nil => intro i c rest; simp [dlPass, batchMarks]
  | cons x xs ih =>
    intro i c rest
    by_cases h : i % 100 = 0
    · show commitCountsAux ((DlEvent.process (f x) ::
          ((if i % 100 = 0 then [DlEvent.commit] else []) ++ dlPass f (i + 1) xs)) ++
          rest) c = _
      rw [if_pos h]
      show (c + 1) :: commitCountsAux (dlPass f (i + 1) xs ++ rest) (c + 1) = _
      rw [ih (i + 1) (c + 1) rest]
      simp only [List.length_cons, batchMarks, if_pos h, List.singleton_append]
      have harith : c + 1 + xs.length = c + (xs.length + 1) := by omega
      rw [harith]
      simp [List.cons_append]
    · show commitCountsAux ((DlEvent.process (f x) ::
          ((if i % 100 = 0 then [DlEvent.commit] else []) ++ dlPass f (i + 1) xs)) ++
          rest) c = _
      rw [if_neg h]
      show commitCountsAux (dlPass f (i + 1) xs ++ rest) (c + 1) = _
      rw [ih (i + 1) (c + 1) rest]
      simp only [List.length_cons, batchMarks, if_neg h, List.nil_append]
      have harith : c + 1 + xs.length = c + (xs.length + 1) := by omega
      rw [harith]

/-- Commit schedule of `download_media`: the in-pass commits fall after the
1st, 101st, 201st, ... processed items of each of the two passes, plus the
final commit. -/
theorem commitCounts_download_media (db : DB) :
    commitCounts (download_media_events db) =
      batchMarks 0 0 (db.tweets.filter (fun t => !t.files_downloaded)).length ++
      batchMarks 0 (db.tweets.filter (fun t => !t.files_downloaded)).length
        (db.users.filter (fun u => !u.files_downloaded)).length ++
      [(db.tweets.filter (fun t => !t.files_downloaded)).length +
        (db.users.filter (fun u => !u.files_downloaded)).length] := by
  show commitCountsAux _ 0 = _
  rw [download_media_events, List.append_assoc,
    commitCountsAux_dlPass DlItem.tweet _ 0 0,
    commitCountsAux_dlPass DlItem.user _ 0 _]
  simp [commitCountsAux, List.append_assoc]

theorem maxPendingAux_dlPass (f : α → DlItem) :
    ∀ (l : List α) (i c mx : Nat) (rest : List DlEvent),
      (if i % 100 = 0 then c ≤ 99 else c + (100 - i % 100) ≤ 99) →
      mx ≤ 100 →
      (∀ c' mx', c' ≤ 99 → mx' ≤ 100 → maxPendingAux rest c' mx' ≤ 100) →
      maxPendingAux (dlPass f i l ++ rest) c mx ≤ 100 := by
  intro l
  induction l with
  | nil =>
    intro i c mx rest hinv hmx hcont
    have hc : c ≤ 99 := by
      by_cases h : i % 100 = 0
      · simpa [h] using hinv
      · rw [if_neg h] at hinv
        omega
    simpa [dlPass] using hcont c mx hc hmx
  | cons x xs ih =>
    intro i c mx rest hinv hmx hcont
    have hmod : i % 100 < 100 := Nat.mod_lt _ (by omega)
    have hc : c ≤ 99 := by
      by_cases h : i % 100 = 0
      · simpa [h] using hinv
      · rw [if_neg h] at hinv
        omega
    by_cases h : i % 100 = 0
    · have hstep : dlPass f i (x :: xs) ++ rest =
          DlEvent.process (f x) :: DlEvent.commit :: (dlPass f (i + 1) xs ++ rest) := by
        simp [dlPass, h]
      rw [hstep]
      show maxPendingAux (dlPass f (i + 1) xs ++ rest) 0 (max mx (c + 1)) ≤ 100
      refine ih (i + 1) 0 (max mx (c + 1)) rest ?_ (by omega) hcont
      rw [if_neg (by omega)]
      omega
    · have hstep : dlPass f i (x :: xs) ++ rest =
          DlEvent.process (f x) :: (dlPass f (i + 1) xs ++ rest) := by
        simp [dlPass, h]
      rw [hstep]
      show maxPendingAux (dlPass f (i + 1) xs ++ rest) (c + 1) (max mx (c + 1)) ≤ 100
      rw [if_neg h] at hinv
      refine ih (i + 1) (c + 1) (max mx (c + 1)) rest ?_ (by omega) hcont
      by_cases h' : (i + 1) % 100 = 0
      · rw [if_pos h']
        omega
      · rw [if_neg h']
        omega

/-- At no point are more than 100 processed items pending uncommitted. -/
theorem maxPending_download_media (db : DB) :
    maxPending (download_media_events db) ≤ 100 := by
  show maxPendingAux _ 0 0 ≤ 100
  rw [download_media_events, List.append_assoc]
  refine maxPendingAux_dlPass DlItem.tweet _ 0 0 0 _ (by simp) (by omega) ?_
  intro c' mx' hc' hmx'
  refine maxPendingAux_dlPass DlItem.user _ 0 c' mx' _ (by simpa) hmx' ?_
  intro c'' mx'' _ hmx''
  simpa [maxPendingAux] using hmx''

theorem download_media_last_commit (db : DB) :
    (download_media_events db).getLast? = some DlEvent.commit := by
  rw [download_media_events]
  exact List.getLast?_concat _

/-- C1.  In TIMELINE (USER) mode a page is scanned in delivered order and
exactly the records preceding the first already-known identity are
collected and then inserted, after which paging stops: on the page
`[105, 104, 103]` with `103` known, one single request is made, `105` and
`104` are collected and inserted, and no further response is ever
consumed.  The known-identity shortcut is never applied to FAVORITES: a
FAVORITES page scan collects the whole page and never raises early
termination. -/
theorem c1_timeline_early_termination :
    (∀ (existing : List Int) (max_id : Option Int) (page : List RawStatus),
      (processPage FeedKind.USER none existing max_id page).1 =
        page.takeWhile (fun st => !(existing.contains st.id))) ∧
    (∀ rest : List Resp,
      tlRun FeedKind.USER [103] (Resp.page [wStatus 105, wStatus 104, wStatus 103] :: rest)
        initState =
      .ok ([none],
        ⟨{ since_id := none, max_id := some 104,
           statuses := [wStatus 105, wStatus 104], early_termination := true },
         { request_index := 1, requests_before_sleeps := 299, sleep_time := 3 }⟩)) ∧
    get_existing_tweet_ids
      (insertStatuses FeedKind.USER "alice" (get_existing_tweet_ids wDb103) none wDb103
        [wStatus 105, wStatus 104]) = [103, 105, 104] ∧
    (∀ (existing : List Int) (max_id : Option Int) (page : List RawStatus),
      (processPage FeedKind.FAVORITES none existing max_id page).1 = page ∧
      (processPage FeedKind.FAVORITES none existing max_id page).2.2 = false) := by
  refine ⟨?_, ?_, by rfl, ?_⟩
  · intro existing max_id page
    exact processPage_user_takeWhile existing max_id page
  · intro rest
    rw [show tlRun FeedKind.USER [103]
          (Resp.page [wStatus 105, wStatus 104, wStatus 103] :: rest) initState =
        prependTrace none (tlRun FeedKind.USER [103] rest
          ⟨{ since_id := none, max_id := some 104,
             statuses := [wStatus 105, wStatus 104], early_termination := true },
           { request_index := 1, requests_before_sleeps := 299, sleep_time := 3 }⟩)
      from rfl]
    rw [tlRun_early_stop FeedKind.USER [103] rest _ _ rfl]
    rfl
  · intro existing max_id page
    exact ⟨processPage_fav_fst existing max_id page,
      processPage_fav_early existing max_id page⟩

/-- C4, amended.  The value of `max_id` after a fully-processed non-empty
page is at most — not strictly less than — the minimum identity occurring
in the page (under the exclusive upper-bound reading of `max_id`, a next
page below the bound still excludes every record seen). -/
theorem c4_maxId_le_page_min (type_ : FeedKind) (since_id : Option Int)
    (existing : List Int) (max_id : Option Int) (page : List RawStatus)
    (hfull : (processPage type_ since_id existing max_id page).2.2 = false)
    (hne : page ≠ []) :
    ∃ m, (processPage type_ since_id existing max_id page).2.1 = some m ∧
      ∀ st ∈ page, m ≤ st.id := by
  have hcol : (processPage type_ since_id existing max_id page).1 = page :=
    processPage_not_early type_ since_id existing max_id page hfull
  rcases processPage_maxId type_ since_id existing max_id page with
    ⟨hnil, _⟩ | ⟨v, hv, hvc, _⟩
  · rw [hcol] at hnil
    exact absurd hnil hne
  · exact ⟨v, hv, fun st hst => hvc st (by rw [hcol]; exact hst)⟩

/-- C4 counterexample.  The page `[105, 104]`, fully processed with no
early termination, leaves `max_id = 104` — equal to the page's minimum
identity `104`, not strictly below it. -/
theorem c4_counterexample :
    (processPage FeedKind.USER none ([] : List Int) none
      [wStatus 105, wStatus 104]).2.1 = some 104 ∧
    (processPage FeedKind.USER none ([] : List Int) none
      [wStatus 105, wStatus 104]).2.2 = false ∧
    wStatus 104 ∈ [wStatus 105, wStatus 104] ∧ (wStatus 104).id = 104 ∧
    ¬((104 : Int) < 104) := by
  refine ⟨by rfl, by rfl, by simp, by rfl, by omega⟩

/-- C4 witness. -/
theorem c4_witness :
    ∃ m, (processPage FeedKind.USER none ([] : List Int) none
      [wStatus 105, wStatus 104]).2.1 = some m ∧
      ∀ st ∈ [wStatus 105, wStatus 104], m ≤ st.id :=
  c4_maxId_le_page_min FeedKind.USER none [] none [wStatus 105, wStatus 104]
    (by rfl) (by simp)

/-- C7.  Whenever the request budget is exhausted
(`request_index ≥ requests_before_sleeps`, i.e. `budget - 1` requests) and
less than the nominal spacing has elapsed, the wait step first drains the
deferred media downloads, re-measures the elapsed time, and sleeps only
the still-remaining (positive) amount; a budget-exhaustion sleep never
happens without the download step first.  The `import_from_csv` variant
(with its duplicated elapsed-time check) behaves identically. -/
theorem c7_wait_downloads_before_sleep
    (request_index requests_before_sleeps : Nat) (sleep_time d1 d2 : ℚ) :
    (request_index ≥ requests_before_sleeps → d1 < sleep_time →
      archiveWaitStep request_index requests_before_sleeps sleep_time d1 d2 =
        WaitAction.downloadMedia ::
          (if d2 < sleep_time then [WaitAction.sleep (sleep_time - d2)] else [])) ∧
    (∀ x, WaitAction.sleep x ∈
        archiveWaitStep request_index requests_before_sleeps sleep_time d1 d2 →
      (archiveWaitStep request_index requests_before_sleeps sleep_time d1 d2).head? =
          some WaitAction.downloadMedia ∧ x = sleep_time - d2 ∧ 0 < x) ∧
    csvWaitStep request_index requests_before_sleeps sleep_time d1 d2 =
      archiveWaitStep request_index requests_before_sleeps sleep_time d1 d2 := by
  refine ⟨?_, ?_, ?_⟩
  · intro hge hd1
    simp [archiveWaitStep, hge, hd1]
  · intro x hx
    by_cases hge : request_index ≥ requests_before_sleeps
    · by_cases hd1 : d1 < sleep_time
      · simp only [archiveWaitStep, hge, hd1, if_true] at hx ⊢
        rcases List.mem_cons.mp hx with hx | hx
        · exact absurd hx (by simp)
        · by_cases hd2 : d2 < sleep_time
          · rw [if_pos hd2] at hx
            simp only [List.mem_singleton, WaitAction.sleep.injEq] at hx
            subst hx
            exact ⟨rfl, rfl, by linarith⟩
          · rw [if_neg hd2] at hx
            cases hx
      · simp [archiveWaitStep, hge, hd1] at hx
    · simp [archiveWaitStep, hge] at hx
  · by_cases hge : request_index ≥ requests_before_sleeps
    · by_cases hd1 : d1 < sleep_time
      · simp [archiveWaitStep, csvWaitStep, hge, hd1]
      · simp [archiveWaitStep, csvWaitStep, hge, hd1]
    · simp [archiveWaitStep, csvWaitStep, hge]

/-- C7 witness. -/
theorem c7_witness :
    archiveWaitStep 59 59 15 3 10 =
      [WaitAction.downloadMedia, WaitAction.sleep 5] := by
  have h := (c7_wait_downloads_before_sleep 59 59 15 3 10).1 (le_refl _) (by norm_num)
  rw [h]
  norm_num

/-- C8.  Within one API-mode pass over a single feed kind, if the remote
delivers every page newest-first (strictly decreasing identities) and each
page served for `max_id = m` lies strictly below `m`, then the statuses
handed to the insertion phase are in strictly decreasing identity order. -/
theorem c8_run_strictly_decreasing (type_ : FeedKind) (existing : List Int)
    (remote : FeedKind → Option Int → List RawStatus) (fuel : Nat)
    (hdec : ∀ k m, List.Chain' (fun a b : Int => b < a)
      ((remote k m).map (fun st => st.id)))
    (hbelow : ∀ k (m : Int), ∀ st ∈ remote k (some m), st.id < m) :
    List.Chain' (fun a b => b < a)
      ((pagingPass type_ existing remote fuel none none []).map (fun st => st.id)) :=
  pagingPass_chain type_ existing remote hdec hbelow fuel none none []
    (by simp) (by intro m h; cases h) (fun _ => rfl)

/-- C8 witness. -/
theorem c8_witness :
    List.Chain' (fun a b => b < a)
      ((pagingPass FeedKind.USER [] wRemotePages 2 none none []).map
        (fun st => st.id)) := by
  refine c8_run_strictly_decreasing FeedKind.USER [] wRemotePages 2 ?_ ?_
  · intro k m
    cases m with
    | none =>
      simp only [wRemotePages, List.map_cons, List.map_nil]
      refine List.chain'_cons.mpr ⟨?_, List.chain'_singleton _⟩
      show (wStatus 104).id < (wStatus 105).id
      norm_num [wStatus]
    | some v => simp [wRemotePages]
  · intro k m st hst
    simp [wRemotePages] at hst

/-- C9, amended.  `download_media` processes exactly the Records, then
exactly the Authors, whose download-state flag is false; within each of
the two passes it commits after the item at every zero-based index
divisible by 100 (the 1st, 101st, 201st, ... items), plus a final commit
at the end — so at no point are more than 100 processed items pending in
an uncommitted transaction. -/
theorem c9_download_media_schedule (db : DB) :
    processedItems (download_media_events db) =
      (db.tweets.filter (fun t => !t.files_downloaded)).map DlItem.tweet ++
        (db.users.filter (fun u => !u.files_downloaded)).map DlItem.user ∧
    commitCounts (download_media_events db) =
      batchMarks 0 0 (db.tweets.filter (fun t => !t.files_downloaded)).length ++
        batchMarks 0 (db.tweets.filter (fun t => !t.files_downloaded)).length
          (db.users.filter (fun u => !u.files_downloaded)).length ++
        [(db.tweets.filter (fun t => !t.files_downloaded)).length +
          (db.users.filter (fun u => !u.files_downloaded)).length] ∧
    maxPending (download_media_events db) ≤ 100 ∧
    (download_media_events db).getLast? = some DlEvent.commit := by
  refine ⟨?_, commitCounts_download_media db, maxPending_download_media db,
    download_media_last_commit db⟩
  rw [download_media_events, processedItems_append, processedItems_append,
    dlPass_processed, dlPass_processed]
  simp [processedItems]

/-- C9 counterexample.  With two pending records the code commits after the
first processed item: the commit points (in processed items) are `[1, 2]`,
and the commit at 1 is neither a positive multiple of 100 nor the final
commit — the store is not committed in batches of 100. -/
theorem c9_counterexample :
    commitCounts (download_media_events wDb2) = [1, 2] ∧
    ¬ commitsInHundredBatches (download_media_events wDb2) := by
  refine ⟨by rfl, by decide⟩

/-- C10.  The bulk lookup rejects an empty or over-100 id list, and
`import_from_csv` never reaches that branch: every group it builds is a
non-empty slice of at most 100 identities, and a whole fault-free import
run never returns the error. -/
theorem c10_lookup_guard_unreachable :
    (∀ (remote : Int → Option RawStatus) (ids : List Int),
      (∃ e, LookupStatuses remote ids = .error e) ↔ (ids = [] ∨ 100 < ids.length)) ∧
    (∀ (ids : List Int), ∀ g ∈ chunks ids, g ≠ [] ∧ g.length ≤ 100) ∧
    (∀ (remote : Int → Option RawStatus) (username : String) (rows : List CsvRow)
      (db : DB), ∃ db', import_from_csv remote username rows db = .ok db') := by
  refine ⟨?_, ?_, ?_⟩
  · intro remote ids
    by_cases hv : ids = [] ∨ 100 < ids.length
    · rw [show LookupStatuses remote ids =
          .error "status_ids must be between 1 and 100 in length." from by
        simp [LookupStatuses, hv]]
      exact ⟨fun _ => hv, fun _ => ⟨_, rfl⟩⟩
    · rw [show LookupStatuses remote ids = .ok (ids.filterMap remote) from by
        simp [LookupStatuses, hv]]
      constructor
      · rintro ⟨e, he⟩
        exact Except.noConfusion he
      · intro h
        exact absurd h hv
  · intro ids g hg
    exact chunks_mem ids g hg
  · intro remote username rows db
    obtain ⟨db2, hok⟩ := runGroups_ok remote
      (chunks ((csvScan username (get_existing_tweet_ids db) rows).map (fun p => p.1)))
      db
      (fun g hg => chunks_mem _ g hg)
    exact ⟨csvOnlyPhase db2 (csvScan username (get_existing_tweet_ids db) rows),
      by simp [import_from_csv, hok]⟩

/-- C10 witness. -/
theorem c10_witness :
    ([1, 2] : List Int) ≠ [] ∧ ([1, 2] : List Int).length ≤ 100 :=
  c10_lookup_guard_unreachable.2.1 [1, 2] [1, 2] (by decide)

/-- C2.  A rate-limit error (code 88) is never propagated to the caller:
the loop waits and reissues the very same request — the same `max_id` for a
page fetch, the same unchanged id slice for a bulk lookup — so the run's
collected statuses and store are exactly those of a run in which every
request succeeded immediately (the rate-limit responses removed from the
sequence), and a sequence with no other error never fails. -/
theorem c2_rate_limit_retry :
    (∀ (type_ : FeedKind) (existing : List Int) (resps : List Resp) (s : LoopState),
      resEqScan (tlRun type_ existing resps s)
        (tlRun type_ existing (stripRL resps) s)) ∧
    (∀ (type_ : FeedKind) (existing : List Int) (resps : List Resp) (s : LoopState),
      (∀ r ∈ resps, r ≠ Resp.err) →
      ∃ tr s', tlRun type_ existing resps s = .ok (tr, s')) ∧
    (∀ (type_ : FeedKind) (existing : List Int) (rest : List Resp)
      (sc : ScanState) (p : PaceState) (tr : List (Option Int)) (s' : LoopState),
      sc.early_termination = false →
      tlRun type_ existing (Resp.rateLimit :: rest) ⟨sc, p⟩ = .ok (tr, s') →
      ∃ tr', tr = sc.max_id :: tr' ∧ (tr' = [] ∨ tr'.head? = some sc.max_id)) ∧
    (∀ (csvIds : List Int) (resps : List LResp) (s : CsvState),
      cresEqObs (csvRun csvIds resps s) (csvRun csvIds (stripCsvRL resps) s)) ∧
    (∀ (csvIds : List Int) (resps : List LResp) (s : CsvState),
      (∀ r ∈ resps, r ≠ LResp.err) →
      ∃ tr s', csvRun csvIds resps s = .ok (tr, s')) ∧
    (∀ (csvIds : List Int) (resps : List LResp) (s : CsvState)
      (tr : List (List Int)) (s' : CsvState),
      (csvIds.drop s.tweet_index).take 100 ≠ [] →
      csvRun csvIds (LResp.rateLimit :: resps) s = .ok (tr, s') →
      ∃ tr', tr = (csvIds.drop s.tweet_index).take 100 :: tr' ∧
        (tr' = [] ∨ tr'.head? = some ((csvIds.drop s.tweet_index).take 100))) := by
  refine ⟨?_, ?_, ?_, ?_, ?_, ?_⟩
  · exact fun type_ existing resps s => tlRun_stripRL type_ existing resps s
  · exact fun type_ existing resps s h => tlRun_no_err_ok type_ existing resps s h
  · intro type_ existing rest sc p tr s' he h
    rw [show tlRun type_ existing (Resp.rateLimit :: rest) ⟨sc, p⟩ =
        if sc.early_termination then .ok ([], ⟨sc, p⟩)
        else prependTrace sc.max_id (tlRun type_ existing rest
          ⟨sc, rateLimitRecover { p with request_index := p.request_index + 1 }⟩)
      from rfl, if_neg (by rw [he]; exact Bool.false_ne_true)] at h
    rcases hX : tlRun type_ existing rest
        ⟨sc, rateLimitRecover { p with request_index := p.request_index + 1 }⟩ with
      e | ts
    · rw [hX] at h
      exact Except.noConfusion h
    · obtain ⟨tr0, s0⟩ := ts
      rw [hX] at h
      simp only [prependTrace, Except.ok.injEq, Prod.mk.injEq] at h
      refine ⟨tr0, by rw [← h.1], ?_⟩
      exact tlRun_trace_head type_ existing rest _ tr0 s0 hX
  · exact fun csvIds resps s => csvRun_stripRL csvIds resps s
  · exact fun csvIds resps s h => csvRun_no_err_ok csvIds resps s h
  · intro csvIds resps s tr s' hsl h
    rw [show csvRun csvIds (LResp.rateLimit :: resps) s =
        if (csvIds.drop s.tweet_index).take 100 = [] then .ok ([], s)
        else prependCsvTrace ((csvIds.drop s.tweet_index).take 100)
          (csvRun csvIds resps { s with request_index := 60 - 1 })
      from rfl, if_neg hsl] at h
    rcases hX : csvRun csvIds resps { s with request_index := 60 - 1 } with e | ts
    · rw [hX] at h
      exact Except.noConfusion h
    · obtain ⟨tr0, s0⟩ := ts
      rw [hX] at h
      simp only [prependCsvTrace, Except.ok.injEq, Prod.mk.injEq] at h
      refine ⟨tr0, by rw [← h.1], ?_⟩
      exact csvRun_trace_head csvIds resps { s with request_index := 60 - 1 } tr0 s0 hX

/-- C2 witness. -/
theorem c2_witness :
    ∃ tr s', tlRun FeedKind.USER []
      [Resp.rateLimit, Resp.page [wStatus 105]] initState = .ok (tr, s') :=
  c2_rate_limit_retry.2.1 FeedKind.USER []
    [Resp.rateLimit, Resp.page [wStatus 105]] initState (by decide)

/-- C5.  CSV reconciliation: the csv-only identities (distinct, none
already known) are partitioned into non-empty groups of at most 100, each
identity landing in exactly one bulk-lookup call; every status a bulk
lookup returns carries a not-yet-known identity and is inserted, so the
stored id list afterwards is the old one extended by exactly the looked-up
ids the remote knew — in particular it stays duplicate-free, and no
bulk-lookup result ever creates a second Record with an already-present
identity. -/
theorem c5_csv_groups_and_insertion (remote : Int → Option RawStatus)
    (username : String) (rows : List CsvRow) (db : DB)
    (hsound : ∀ i st, remote i = some st → st.id = i)
    (hnodup : (get_existing_tweet_ids db).Nodup) :
    (chunks ((csvScan username (get_existing_tweet_ids db) rows).map
        (fun p => p.1))).flatten =
      (csvScan username (get_existing_tweet_ids db) rows).map (fun p => p.1) ∧
    (∀ g ∈ chunks ((csvScan username (get_existing_tweet_ids db) rows).map
        (fun p => p.1)), g ≠ [] ∧ g.length ≤ 100) ∧
    ((csvScan username (get_existing_tweet_ids db) rows).map (fun p => p.1)).Nodup ∧
    (∀ i ∈ (csvScan username (get_existing_tweet_ids db) rows).map (fun p => p.1),
      i ∉ get_existing_tweet_ids db) ∧
    ∃ db', runGroups remote db
        (chunks ((csvScan username (get_existing_tweet_ids db) rows).map
          (fun p => p.1))) = .ok db' ∧
      get_existing_tweet_ids db' = get_existing_tweet_ids db ++
        ((csvScan username (get_existing_tweet_ids db) rows).map
          (fun p => p.1)).filter (fun i => (remote i).isSome) ∧
      (get_existing_tweet_ids db').Nodup := by
  refine ⟨chunks_flatten _, fun g hg => chunks_mem _ g hg,
    csvScan_keys_nodup username _ rows, csvScan_keys_notex username _ rows, ?_⟩
  obtain ⟨db', hok, hids⟩ := runGroups_ids remote hsound
    (chunks ((csvScan username (get_existing_tweet_ids db) rows).map (fun p => p.1)))
    db (fun g hg => chunks_mem _ g hg)
  rw [chunks_flatten] at hids
  refine ⟨db', hok, hids, ?_⟩
  rw [hids, List.nodup_append]
  refine ⟨hnodup,
    List.Nodup.filter _ (csvScan_keys_nodup username _ rows), ?_⟩
  intro a ha hafil
  exact csvScan_keys_notex username _ rows a (List.mem_of_mem_filter hafil) ha

/-- C5 witness. -/
theorem c5_witness :
    (chunks ((csvScan "alice" (get_existing_tweet_ids wEmptyDb) [wRow42]).map
        (fun p => p.1))).flatten =
      (csvScan "alice" (get_existing_tweet_ids wEmptyDb) [wRow42]).map
        (fun p => p.1) :=
  (c5_csv_groups_and_insertion wRemoteNone "alice" [wRow42] wEmptyDb
    (fun i st h => Option.noConfusion h)
    (by simp [get_existing_tweet_ids, wEmptyDb])).1

theorem filter_unknown_key_single :
    ∀ (m : List (Int × CSVTweet)) (i : Int) (c : CSVTweet)
      (q : Int × CSVTweet → Bool),
      ((m.map (fun p => p.1)).Nodup) → lookupEntry m i = some c →
      q (i, c) = true →
      (m.filter q).filter (fun p => p.1 == i) = [(i, c)] := by
  intro m
  induction m with
  | nil => intro i c q _ h _; simp [lookupEntry, List.find?] at h
  | cons p rest ih =>
    intro i c q hnodup hl hq
    rw [List.map_cons] at hnodup
    obtain ⟨hnd1, hnd2⟩ := List.nodup_cons.mp hnodup
    by_cases hpi : p.1 = i
    · have hpc : p = (i, c) := by
        simp only [lookupEntry, List.find?,
          show (p.1 == i) = true from beq_iff_eq.mpr hpi] at hl
        simp only [Option.map_some', Option.some.injEq] at hl
        exact Prod.ext hpi hl
      subst hpc
      have htail : (List.filter q rest).filter (fun p => p.1 == i) = [] := by
        refine List.filter_eq_nil_iff.mpr ?_
        intro x hx
        have hxr : x ∈ rest := List.mem_of_mem_filter hx
        have hxi : x.1 ≠ i := by
          intro hcon
          exact hnd1 (hcon ▸ List.mem_map_of_mem (fun p => p.1) hxr)
        simp [hxi]
      rw [List.filter_cons, if_pos hq, List.filter_cons]
      simp only [show (((i, c).1 == i)) = true by simp, if_true]
      rw [htail]
    · have hl' : lookupEntry rest i = some c := by
        simpa only [lookupEntry, List.find?,
          show (p.1 == i) = false from beq_eq_false_iff_ne.mpr hpi] using hl
      rw [List.filter_cons]
      by_cases hqp : q p = true
      · rw [if_pos hqp, List.filter_cons,
          show (p.1 == i) = false from beq_eq_false_iff_ne.mpr hpi]
        simp only [if_false, Bool.false_eq_true]
        exact ih i c q hnd2 hl' hq
      · rw [if_neg hqp]
        exact ih i c q hnd2 hl' hq

/-- C6 (spec-modelled: `Tweet.make_from_csvtweet` is not among the
sources).  A CSV-derived identity — here 42 — that is not already known,
is carried by a unique CSV row, and is absent from every bulk-lookup
result, ends the completed run as exactly one stored Record, built from
the CSV fields alone; it is attached to an Author only when one already
exists by handle, and the CSV-only phase never creates an Author. -/
theorem c6_csv_only_standalone (remote : Int → Option RawStatus)
    (username : String) (rows : List CsvRow) (db : DB) (r42 : CsvRow)
    (hsound : ∀ i st, remote i = some st → st.id = i)
    (hmem : r42 ∈ rows) (hid : r42.tweet_id = 42)
    (huniq : ∀ r ∈ rows, r.tweet_id = 42 → r = r42)
    (hnew : (42 : Int) ∉ get_existing_tweet_ids db)
    (hmiss : remote 42 = none) :
    ∃ dbF, import_from_csv remote username rows db = .ok dbF ∧
      dbF.tweets.filter (fun t => t.id == 42) =
        [linkByHandle dbF.users (csvTweetOfRow username r42)] ∧
      (∀ (dbX : DB) (mX : List (Int × CSVTweet)),
        (csvOnlyPhase dbX mX).users = dbX.users) := by
  obtain ⟨db2, hok⟩ := runGroups_ok remote
    (chunks ((csvScan username (get_existing_tweet_ids db) rows).map (fun p => p.1)))
    db (fun g hg => chunks_mem _ g hg)
  have himp : import_from_csv remote username rows db =
      .ok (csvOnlyPhase db2 (csvScan username (get_existing_tweet_ids db) rows)) := by
    simp [import_from_csv, hok]
  have h42db2 : ∀ t ∈ db2.tweets, ¬(t.id = 42) := by
    intro t ht hc
    rcases runGroups_tweets_source remote hsound _ db db2 hok t ht with hin | hr
    · exact hnew (by rw [← hc]; exact List.mem_map_of_mem _ hin)
    · rw [hc, hmiss] at hr
      exact Bool.noConfusion hr
  have h42ids2 : (42 : Int) ∉ get_existing_tweet_ids db2 := by
    intro hmem2
    obtain ⟨t, ht, hteq⟩ := List.mem_map.mp hmem2
    exact h42db2 t ht hteq
  have hentry : lookupEntry (csvScan username (get_existing_tweet_ids db) rows) 42 =
      some (csvTweetOfRow username r42) :=
    csvScan_entry username _ rows r42 42 hmem hid huniq hnew
  have hnodupm := csvScan_keys_nodup username (get_existing_tweet_ids db) rows
  have hidm := csvScan_entry_id username (get_existing_tweet_ids db) rows
  obtain ⟨htw, hus⟩ :=
    csvOnlyPhase_eq db2 (csvScan username (get_existing_tweet_ids db) rows)
  refine ⟨csvOnlyPhase db2 (csvScan username (get_existing_tweet_ids db) rows),
    himp, ?_, fun dbX mX => (csvOnlyPhase_eq dbX mX).2⟩
  rw [hus, htw, List.filter_append]
  rw [show db2.tweets.filter (fun t => t.id == 42) = [] from
    List.filter_eq_nil_iff.mpr (fun t ht hbeq =>
      h42db2 t ht (by simpa using hbeq))]
  rw [List.nil_append, List.filter_map]
  rw [List.filter_congr (p :=
      (fun t : Tweet => t.id == 42) ∘ (fun p : Int × CSVTweet => linkByHandle db2.users p.2))
    (q := fun p : Int × CSVTweet => p.1 == 42) ?hcong]
  case hcong =>
    intro p hp
    have hpid : (p.2).id = p.1 := hidm p (List.mem_of_mem_filter hp)
    simp [Function.comp_apply, linkByHandle_id, hpid]
  rw [filter_unknown_key_single (csvScan username (get_existing_tweet_ids db) rows)
    42 (csvTweetOfRow username r42)
    (fun p => !((get_existing_tweet_ids db2).contains p.1)) hnodupm hentry
    (by simp [h42ids2])]
  rfl

/-- C6 witness. -/
theorem c6_witness :
    ∃ dbF, import_from_csv wRemoteNone "alice" [wRow42] wEmptyDb = .ok dbF ∧
      dbF.tweets.filter (fun t => t.id == 42) =
        [linkByHandle dbF.users (csvTweetOfRow "alice" wRow42)] ∧
      (∀ (dbX : DB) (mX : List (Int × CSVTweet)),
        (csvOnlyPhase dbX mX).users = dbX.users) :=
  c6_csv_only_standalone wRemoteNone "alice" [wRow42] wEmptyDb wRow42
    (fun i st h => Option.noConfusion h)
    (List.mem_singleton.mpr rfl) rfl
    (fun r hr _ => List.mem_singleton.mp hr)
    (by simp [get_existing_tweet_ids, wEmptyDb]) rfl

end Twarchive
